import Mathlib

/-!
Verification of the Nexus Maze simulation core against its specification.

The definitions below are shallow embeddings of the JavaScript sources:
`src/core/simpleEcs.js` (entity-component store with cached queries),
the `GameStateManager` property accessors, and the `NexusMazeGame` class
(maze generation, A-star pathfinding, coordinate conversion, the collision
and effect-timer systems, and the phase machine of the frame loop).
JavaScript numbers are modelled as exact rationals or integers; `Math.random`
is modelled by an explicit stream of naturals (the JS call
`Math.floor(Math.random() * n)` produces an arbitrary index below `n`, which
the stream value reproduces modulo `n`, so quantifying over all streams
covers every concrete execution).
-/

namespace NexusMaze

/-! ## Constants from `src/constants.js` (the ones the claims touch) -/

def CELL_SIZE : ℚ := 5 / 2

def ENEMY_KNOCKBACK_FORCE : ℚ := 15

def VICTORY_LEVEL : ℕ := 20

def INITIAL_MAZE_SIZE : ℕ := 31

/-! ## Coordinate conversion (`gridToWorld`, `#worldToGrid`)

JS source:
  worldToGrid(wx, wz) = floor(wx / cs + size / 2), floor(wz / cs + size / 2)
  gridToWorld(gx, gz) = ((gx - size / 2) * cs + cs / 2, (gz - size / 2) * cs + cs / 2)
where cs = CELL_SIZE and size = currentMazeSize. -/

def gridToWorld (size : ℕ) (gx gz : ℤ) : ℚ × ℚ :=
  (((gx : ℚ) - (size : ℚ) / 2) * CELL_SIZE + CELL_SIZE / 2,
   ((gz : ℚ) - (size : ℚ) / 2) * CELL_SIZE + CELL_SIZE / 2)

def worldToGrid (size : ℕ) (wx wz : ℚ) : ℤ × ℤ :=
  (⌊wx / CELL_SIZE + (size : ℚ) / 2⌋, ⌊wz / CELL_SIZE + (size : ℚ) / 2⌋)

/-! ## Game state manager (`src/state/gameStateManager.js`)

Each property setter is modelled as a function from the current state and the
assigned value to the new state together with the list of emitted events.
The score setter stores the raw value and always emits; the health and energy
setters clamp to [0, 100] and return early (emitting nothing) when the
normalized value equals the stored one. -/

structure GameState where
  score : ℚ
  health : ℚ
  energy : ℚ
  level : ℚ
deriving DecidableEq, Repr

inductive GEvent where
  | scoreChanged (v : ℚ)
  | healthChanged (v : ℚ)
  | energyChanged (v : ℚ)
  | levelChanged (v : ℚ)
deriving DecidableEq, Repr

def GameState.reset : GameState := ⟨0, 100, 100, 1⟩

def setScore (st : GameState) (v : ℚ) : GameState × List GEvent :=
  ({ st with score := v }, [.scoreChanged v])

def setHealth (st : GameState) (v : ℚ) : GameState × List GEvent :=
  let normalized := max 0 (min 100 v)
  if normalized = st.health then (st, [])
  else ({ st with health := normalized }, [.healthChanged normalized])

def setEnergy (st : GameState) (v : ℚ) : GameState × List GEvent :=
  let normalized := max 0 (min 100 v)
  if normalized = st.energy then (st, [])
  else ({ st with energy := normalized }, [.energyChanged normalized])

def addScore (st : GameState) (points : ℚ) (multiplier : ℚ) : GameState × List GEvent :=
  setScore st (st.score + points * multiplier)

/-! ## Enemy-contact knockback (`#collisionSystem`, lines 1256-1265)

JS source, with (knockX, knockZ) = player position minus enemy position and
dist = hypot(knockX, knockZ) || 1:
  playerVel.x += normX * ENEMY_KNOCKBACK_FORCE
  playerVel.z += normZ * ENEMY_KNOCKBACK_FORCE
  enemyVel.x  -= normX * ENEMY_KNOCKBACK_FORCE * 0.5
  enemyVel.z  -= normZ * ENEMY_KNOCKBACK_FORCE * 0.5
The square root is irrational in general, so the distance is passed as a
parameter related to (dx, dz) by a hypothesis where needed; every concrete
instance used below is exact in binary floating point as well. -/

def knockbackDeltas (dx dz dist : ℚ) : (ℚ × ℚ) × (ℚ × ℚ) :=
  let normX := dx / dist
  let normZ := dz / dist
  ((normX * ENEMY_KNOCKBACK_FORCE, normZ * ENEMY_KNOCKBACK_FORCE),
   (-(normX * ENEMY_KNOCKBACK_FORCE * (1 / 2)), -(normZ * ENEMY_KNOCKBACK_FORCE * (1 / 2))))

def sqNorm (p : ℚ × ℚ) : ℚ := p.1 * p.1 + p.2 * p.2

/-! ## Maze size requested by the level lifecycle (`#createLevel`, lines 572-575)

JS source: mazeSize = min(INITIAL_MAZE_SIZE + floor(level / 2) * 4, 71). -/

def mazeSizeForLevel (level : ℕ) : ℕ :=
  min (INITIAL_MAZE_SIZE + (level / 2) * 4) 71

/-! ## Effect-timer expiry (`#effectsSystem`, lines 1337-1348)

JS source:
  const now = Date.now();
  for (const eid of [...this.queries.timers(this.world)]) {
    const timer = this.EffectTimer.get(eid);
    if (now > timer.expiration) {
      if (this.ecs.entityExists(this.world, timer.target)) {
        this.ecs.removeComponent(this.world, timer.component, timer.target);
      }
      this.ecs.removeEntity(this.world, eid);
    }
  }
The slice of the store the system touches is modelled explicitly: the set of
live entities, the set of (component kind, entity) memberships, and the list
of EffectTimer records (each carried by its own timer entity `tid`).
The loop iterates over a snapshot of the timer query, so the embedding folds
over the initial timer list. -/

structure Timer where
  tid : ℕ
  target : ℕ
  comp : ℕ
  expiration : ℤ
deriving DecidableEq, Repr

structure EffState where
  entities : List ℕ
  comps : List (ℕ × ℕ)
  timers : List Timer
deriving DecidableEq, Repr

def removeEntityEff (st : EffState) (id : ℕ) : EffState :=
  { entities := st.entities.filter (fun e => e ≠ id),
    comps := st.comps.filter (fun ke => ke.2 ≠ id),
    timers := st.timers.filter (fun t => t.tid ≠ id) }

def removeComponentEff (st : EffState) (kind ent : ℕ) : EffState :=
  { st with comps := st.comps.filter (fun ke => ke ≠ (kind, ent)) }

def effectsStep (now : ℤ) (st : EffState) (t : Timer) : EffState :=
  if t.expiration < now then
    let st' := if t.target ∈ st.entities then removeComponentEff st t.comp t.target else st
    removeEntityEff st' t.tid
  else st

def effectsSystem (now : ℤ) (st : EffState) : EffState :=
  st.timers.foldl (effectsStep now) st

/-! ## Phase machine of the frame loop (`#collisionSystem` goal arrival and
`#animate`, lines 1309-1335 and 1559-1576)

The goal-arrival branch of the collision system runs only while the phase is
"playing"; it increments the level, then either sets the phase to "gameWon"
(when the new level reaches VICTORY_LEVEL) or sets it to "transitioning" and
schedules `#createLevel` via setTimeout. `#animate` returns immediately when
the phase is "gameOver" or "gameWon", so no further gameplay systems run.
This model keeps exactly the phase, the level and the pending scheduled
level-creation flag; the geometric goal test is abstracted into the Boolean
`goalHit` supplied to each frame, and the setTimeout callback into the
`timerFire` event. The Boolean returned by `stepEvent` records whether
`#createLevel` ran during that event. -/

inductive Phase where
  | loading
  | playing
  | transitioning
  | gameOver
  | gameWon
deriving DecidableEq, Repr

structure PhaseState where
  phase : Phase
  level : ℕ
  pendingRegen : Bool
deriving DecidableEq, Repr

def goalArrival (st : PhaseState) : PhaseState :=
  if st.phase = .playing then
    let lvl := st.level + 1
    if VICTORY_LEVEL ≤ lvl then { st with phase := .gameWon, level := lvl }
    else { phase := .transitioning, level := lvl, pendingRegen := true }
  else st

inductive GameEvent where
  | frame (goalHit : Bool)
  | timerFire
deriving DecidableEq, Repr

def stepEvent (st : PhaseState) : GameEvent → PhaseState × Bool
  | .frame goalHit =>
      if st.phase = .playing ∧ goalHit then (goalArrival st, false) else (st, false)
  | .timerFire =>
      if st.pendingRegen then
        ({ phase := .playing, level := st.level, pendingRegen := false }, true)
      else (st, false)

def runEvents (st : PhaseState) : List GameEvent → PhaseState × Bool
  | [] => (st, false)
  | ev :: rest =>
      let (st', ran) := stepEvent st ev
      let (stFin, ranRest) := runEvents st' rest
      (stFin, ran || ranRest)

/-! ## Entity-component store (`src/core/simpleEcs.js`)

Entities are the set of live numeric ids together with the next id to issue.
Component kinds are named c0, c1, ... in registry order, so a kind is
identified here by its registry index; a component's table maps entity id to
its payload record (modelled by a natural number, since payload contents
never influence membership, queries or cache maintenance). The registry is
modelled as a total map from kind index to table with empty default, which
matches `componentRegistry.get(name)?.has(id)` returning falsy for unknown
names; all kinds are declared up front, as `#defineComponents` does.
A query key is the JS comma-join of the sorted component names, which is in
bijection with the sorted list of kind indices used here; the cache map is a
list of (key, cached id set) pairs in insertion order. -/

structure SimpleECS where
  entities : List ℕ
  nextEntityId : ℕ
  compData : ℕ → List (ℕ × ℕ)
  queryCache : List (List ℕ × List ℕ)

def initECS : SimpleECS := ⟨[], 1, fun _ => [], []⟩

def hasComp (st : SimpleECS) (k id : ℕ) : Bool :=
  (st.compData k).any (fun p => p.1 = id)

def sortKey (ks : List ℕ) : List ℕ := List.insertionSort (· ≤ ·) ks

def lookupKey (key : List ℕ) : List (List ℕ × List ℕ) → Option (List ℕ)
  | [] => none
  | q :: rest => if q.1 = key then some q.2 else lookupKey key rest

/-- `#updateCaches(id, componentName)`: every cached query whose key mentions
the touched component kind re-tests the touched entity and adds or deletes it. -/
def updateCaches (st : SimpleECS) (id k : ℕ) : SimpleECS :=
  { st with queryCache := st.queryCache.map (fun q =>
      if k ∈ q.1 then
        if q.1.all (fun j => hasComp st j id) then
          (q.1, if id ∈ q.2 then q.2 else id :: q.2)
        else (q.1, q.2.filter (fun e => e ≠ id))
      else q) }

/-- `component.add(id, initialValues)`: store the record, then update caches. -/
def addComponent (st : SimpleECS) (k id v : ℕ) : SimpleECS :=
  let st1 : SimpleECS := { st with compData := fun j =>
    if j = k then (id, v) :: (st.compData k).filter (fun p => p.1 ≠ id) else st.compData j }
  updateCaches st1 id k

/-- `component.remove(id)`: only when the record exists, delete it, then
update caches. -/
def removeComponent (st : SimpleECS) (k id : ℕ) : SimpleECS :=
  if hasComp st k id then
    let st1 : SimpleECS := { st with compData := fun j =>
      if j = k then (st.compData k).filter (fun p => p.1 ≠ id) else st.compData j }
    updateCaches st1 id k
  else st

/-- `addEntity()`: issue the next id and register it. -/
def addEntity (st : SimpleECS) : SimpleECS :=
  { st with entities := st.nextEntityId :: st.entities, nextEntityId := st.nextEntityId + 1 }

/-- `removeEntity(world, id)`: no-op for unknown ids; otherwise drop the id
from the entity set, every query cache and every component table. -/
def removeEntity (st : SimpleECS) (id : ℕ) : SimpleECS :=
  if id ∈ st.entities then
    { entities := st.entities.filter (fun e => e ≠ id),
      nextEntityId := st.nextEntityId,
      compData := fun j => (st.compData j).filter (fun p => p.1 ≠ id),
      queryCache := st.queryCache.map (fun q => (q.1, q.2.filter (fun e => e ≠ id))) }
  else st

/-- The brute-force filter of current entities against a conjunctive
component predicate. -/
def bruteForce (st : SimpleECS) (ks : List ℕ) : List ℕ :=
  st.entities.filter (fun id => ks.all (fun k => hasComp st k id))

/-- `defineQuery(components)`: compute the key; when no cache exists for it
yet, register the brute-force set; idempotent otherwise. -/
def defineQueryOp (st : SimpleECS) (ks : List ℕ) : SimpleECS :=
  match lookupKey (sortKey ks) st.queryCache with
  | some _ => st
  | none => { st with queryCache := st.queryCache ++ [(sortKey ks, bruteForce st ks)] }

/-- Resolving a registered query returns its cached set. -/
def resolve (st : SimpleECS) (ks : List ℕ) : Option (List ℕ) :=
  lookupKey (sortKey ks) st.queryCache

inductive EcsOp where
  | create
  | destroy (id : ℕ)
  | addComp (k id v : ℕ)
  | removeComp (k id : ℕ)
  | defQuery (ks : List ℕ)
deriving DecidableEq, Repr

def applyOp (st : SimpleECS) : EcsOp → SimpleECS
  | .create => addEntity st
  | .destroy id => removeEntity st id
  | .addComp k id v => addComponent st k id v
  | .removeComp k id => removeComponent st k id
  | .defQuery ks => defineQueryOp st ks

def runOps (st : SimpleECS) (ops : List EcsOp) : SimpleECS :=
  ops.foldl applyOp st

/-- Wellformed operation sequences: components are only added to currently
live entities and query predicates name at least one component kind. -/
def wfOp (st : SimpleECS) : EcsOp → Bool
  | .addComp _ id _ => decide (id ∈ st.entities)
  | .defQuery ks => !ks.isEmpty
  | _ => true

def wfOps (st : SimpleECS) : List EcsOp → Bool
  | [] => true
  | op :: rest => wfOp st op && wfOps (applyOp st op) rest

/-- The query-cache consistency invariant together with the bookkeeping facts
that make it inductive: component tables only mention live entities, live
entities are below the next id to issue, and cached keys are nonempty. -/
def EcsInv (st : SimpleECS) : Prop :=
  (∀ q ∈ st.queryCache, ∀ id : ℕ,
      id ∈ q.2 ↔ (id ∈ st.entities ∧ q.1.all (fun k => hasComp st k id) = true)) ∧
  (∀ k : ℕ, ∀ p ∈ st.compData k, p.1 ∈ st.entities) ∧
  (∀ id ∈ st.entities, id < st.nextEntityId) ∧
  (∀ q ∈ st.queryCache, q.1 ≠ [])

/-! ## Grid walks

Four-connected walks through cells satisfying an openness test, shared by the
maze-generator and pathfinder developments. A cell is a pair (x, z or y) of
integers. -/

/-- Four-neighbourhood adjacency. -/
def adjCell (a b : ℤ × ℤ) : Prop :=
  (a.1 - b.1).natAbs + (a.2 - b.2).natAbs = 1

/-- A walk of n unit steps between cells passing the openness test. -/
inductive Walk (op : ℤ × ℤ → Bool) : ℤ × ℤ → ℤ × ℤ → ℕ → Prop where
  | nil (c : ℤ × ℤ) : op c = true → Walk op c c 0
  | cons (a b c : ℤ × ℤ) (n : ℕ) :
      op a = true → adjCell a b → Walk op b c n → Walk op a c (n + 1)

/-! ## Maze generator (`#generateMaze`, lines 854-895)

The maze is a Boolean wall map over integer cells (true = wall = 1 in the
source), initially all walls. The JS array has extent width by height; every
access the algorithm makes is bounds-guarded, so the total function with
walls outside the array is observationally identical. Randomized depth-first
carving: the stack starts at cell (1, 1) which is carved; while the stack is
nonempty, the top cell collects its in-bounds still-wall neighbours at
distance 2 (in the fixed JS direction order); if any exist one is chosen by
the random stream, the chosen cell and the wall between are carved and the
chosen cell pushed; otherwise the top is popped. Each `Math.random` draw is
modelled by one stream value (index below n is value mod n), and the
recursion shifts the stream, so quantifying over streams covers every JS
execution. The loop terminates because each iteration either carves a wall
room or pops; the fuel passed by `carveMaze` strictly dominates the measure
2 * (uncarved rooms) + stack length, so the fuel branch is never reached. -/

def dirList : List (ℤ × ℤ) := [(0, -2), (2, 0), (0, 2), (-2, 0)]

def setOpen (m : ℤ × ℤ → Bool) (c0 : ℤ × ℤ) : ℤ × ℤ → Bool :=
  fun c => if c = c0 then false else m c

def inBoundsCarve (w h : ℕ) (c : ℤ × ℤ) : Bool :=
  decide (0 < c.1 ∧ c.1 < (w : ℤ) - 1 ∧ 0 < c.2 ∧ c.2 < (h : ℤ) - 1)

/-- The candidate neighbour directions of the top cell: in bounds and still a
wall, in JS order. -/
def carveCandidates (w h : ℕ) (m : ℤ × ℤ → Bool) (cell : ℤ × ℤ) : List (ℤ × ℤ) :=
  dirList.filter (fun d =>
    inBoundsCarve w h (cell.1 + d.1, cell.2 + d.2) && m (cell.1 + d.1, cell.2 + d.2))

def carveLoop (w h : ℕ) : (ℕ → ℕ) → ℕ → (ℤ × ℤ → Bool) → List (ℤ × ℤ) → (ℤ × ℤ → Bool)
  | _, 0, m, _ => m
  | _, _ + 1, m, [] => m
  | rng, fuel + 1, m, cell :: rest =>
      let ns := carveCandidates w h m cell
      if ns.isEmpty then carveLoop w h rng fuel m rest
      else
        let d := ns.getD (rng 0 % ns.length) (0, 0)
        let nb : ℤ × ℤ := (cell.1 + d.1, cell.2 + d.2)
        let mid : ℤ × ℤ := (cell.1 + d.1 / 2, cell.2 + d.2 / 2)
        carveLoop w h (fun i => rng (i + 1)) fuel (setOpen (setOpen m nb) mid) (nb :: cell :: rest)

/-- The carving phase of `#generateMaze`, before the extra random openings. -/
def carveMaze (w h : ℕ) (rng : ℕ → ℕ) : ℤ × ℤ → Bool :=
  carveLoop w h rng (2 * w * h + 2) (setOpen (fun _ => true) (1, 1)) [(1, 1)]

/-- floor(random * n): an arbitrary index below n, 0 when n = 0. -/
def randBelow (r n : ℕ) : ℕ := if n = 0 then 0 else r % n

/-- The extra random openings punched after carving. -/
def punchLoop (w h : ℕ) : (ℕ → ℕ) → ℕ → (ℤ × ℤ → Bool) → (ℤ × ℤ → Bool)
  | _, 0, m => m
  | rng, n + 1, m =>
      let x : ℤ := 2 + (randBelow (rng 0) (w - 4) : ℤ)
      let y : ℤ := 2 + (randBelow (rng 1) (h - 4) : ℤ)
      let m1 := if x % 2 = 0 ∧ y % 2 = 1 then setOpen m (x, y) else m
      let m2 := if x % 2 = 1 ∧ y % 2 = 0 then setOpen m1 (x, y) else m1
      punchLoop w h (fun i => rng (i + 2)) n m2

/-- `#generateMaze`: carve, then punch floor(width * height * 0.003) extra
openings. The two phases draw from one JS random stream; they are given
separate streams here, which covers the same set of executions. -/
def generateMaze (w h : ℕ) (rngCarve rngPunch : ℕ → ℕ) : ℤ × ℤ → Bool :=
  punchLoop w h rngPunch (w * h * 3 / 1000) (carveMaze w h rngCarve)

/-- Interior cells with both coordinates odd: the rooms of the logical
half-resolution grid. -/
def roomRegion (w h : ℕ) : Finset (ℤ × ℤ) :=
  ((Finset.Icc 1 ((w : ℤ) - 2)) ×ˢ (Finset.Icc 1 ((h : ℤ) - 2))).filter
    (fun c => c.1 % 2 = 1 ∧ c.2 % 2 = 1)

/-- Interior cells with exactly one odd coordinate: the connector walls
between two rooms. -/
def connRegion (w h : ℕ) : Finset (ℤ × ℤ) :=
  ((Finset.Icc 1 ((w : ℤ) - 2)) ×ˢ (Finset.Icc 1 ((h : ℤ) - 2))).filter
    (fun c => (c.1 % 2 = 1 ∧ c.2 % 2 = 0) ∨ (c.1 % 2 = 0 ∧ c.2 % 2 = 1))

/-- The two room cells a connector wall separates. -/
def connEnds (c : ℤ × ℤ) : (ℤ × ℤ) × (ℤ × ℤ) :=
  if c.1 % 2 = 0 then ((c.1 - 1, c.2), (c.1 + 1, c.2))
  else ((c.1, c.2 - 1), (c.1, c.2 + 1))

/-- Openness test of a wall map. -/
def mOpen (m : ℤ × ℤ → Bool) : ℤ × ℤ → Bool := fun c => !(m c)

/-- The invariant of the carving loop: (1, 1) is open; open cells are rooms
or connectors; an open connector has both of its rooms open; open connectors
number one less than open rooms; every open cell is reachable from (1, 1)
through open cells; the stack holds open rooms; and every open room is on the
stack or has all its in-bounds distance-2 neighbours already open. -/
def CarveInv (w h : ℕ) (m : ℤ × ℤ → Bool) (stack : List (ℤ × ℤ)) : Prop :=
  m (1, 1) = false ∧
  (∀ c : ℤ × ℤ, m c = false → c ∈ roomRegion w h ∨ c ∈ connRegion w h) ∧
  (∀ c ∈ connRegion w h, m c = false →
    m (connEnds c).1 = false ∧ m (connEnds c).2 = false) ∧
  ((connRegion w h).filter (fun c => m c = false)).card + 1 =
    ((roomRegion w h).filter (fun c => m c = false)).card ∧
  (∀ c : ℤ × ℤ, m c = false → ∃ n, Walk (mOpen m) (1, 1) c n) ∧
  (∀ c ∈ stack, c ∈ roomRegion w h ∧ m c = false) ∧
  (∀ r ∈ roomRegion w h, m r = false → r ∈ stack ∨
    ∀ d ∈ dirList, inBoundsCarve w h (r.1 + d.1, r.2 + d.2) = true →
      m (r.1 + d.1, r.2 + d.2) = false)

/-- Room-grid reachability from the start room by distance-2 steps. -/
inductive RoomReach (w h : ℕ) : ℤ × ℤ → Prop where
  | start : RoomReach w h (1, 1)
  | step (r d : ℤ × ℤ) : RoomReach w h r → d ∈ dirList →
      (r.1 + d.1, r.2 + d.2) ∈ roomRegion w h → RoomReach w h (r.1 + d.1, r.2 + d.2)

/-! ## Pathfinder (`findPath`, lines 913-973)

A-star over a stored grid. The grid is the JS array of rows of 0/1 numbers,
modelled as a list of rows of Booleans (true = wall = 1); `maze[z][x] === 1`
on an index outside the array is false in JS, which the default-false lookup
reproduces. A cell {x, z} is the pair (x, z). The JS Maps keyed by the
string x,z are association lists updated by shadowing (latest binding wins,
exactly Map.set). `open.sort((a, b) => fScore(a) - fScore(b))` is a stable
ascending sort by f, modelled by insertion sort (also stable); the `.getD 0`
on score lookups is never reached, since every cell in the open list has g
and f scores (proved as an invariant). The while loop terminates because
every iteration either returns or moves one cell into the closed set and
closed cells are distinct in-bounds cells, so the fuel chosen by `findPath`
(cell count plus one) strictly dominates the remaining iterations; the
path-reconstruction loop follows cameFrom links along strictly decreasing g
scores, so its chain consumes distinct bindings and cameFrom.length + 1 fuel
is never exhausted. -/

def gridWidth (grid : List (List Bool)) : ℕ := (grid.headD []).length

def isWallCell (grid : List (List Bool)) (c : ℤ × ℤ) : Bool :=
  (grid.getD c.2.toNat []).getD c.1.toNat false

/-- A neighbour is skipped unless it is in bounds and not a wall. -/
def walkable (grid : List (List Bool)) (c : ℤ × ℤ) : Bool :=
  decide (0 ≤ c.2 ∧ c.2 < (grid.length : ℤ) ∧ 0 ≤ c.1 ∧ c.1 < (gridWidth grid : ℤ)) &&
    !(isWallCell grid c)

/-- Manhattan-distance heuristic. -/
def heuristic (a b : ℤ × ℤ) : ℕ := (a.1 - b.1).natAbs + (a.2 - b.2).natAbs

/-- Association-list lookup with Map.set shadowing semantics. -/
def plookup {β : Type} : List ((ℤ × ℤ) × β) → (ℤ × ℤ) → Option β
  | [], _ => none
  | p :: rest, c => if p.1 = c then some p.2 else plookup rest c

structure AState where
  openL : List (ℤ × ℤ)
  closed : List (ℤ × ℤ)
  cameFrom : List ((ℤ × ℤ) × (ℤ × ℤ))
  g : List ((ℤ × ℤ) × ℕ)
  f : List ((ℤ × ℤ) × ℕ)

/-- The four neighbours of the current cell, in JS order. -/
def neighborsOf (c : ℤ × ℤ) : List (ℤ × ℤ) :=
  [(c.1, c.2 - 1), (c.1, c.2 + 1), (c.1 - 1, c.2), (c.1 + 1, c.2)]

/-- The body of the neighbour loop: skip walls and out-of-bounds cells, skip
closed cells, then relax: when the tentative score improves (or no score
exists), record cameFrom, g and f, and push the neighbour unless it is
already in the open list. -/
def relaxOne (grid : List (List Bool)) (endC current : ℤ × ℤ) (st : AState)
    (nb : ℤ × ℤ) : AState :=
  if walkable grid nb = false then st
  else if nb ∈ st.closed then st
  else
    let tg := (plookup st.g current).getD 0 + 1
    let doUpd : Bool :=
      match plookup st.g nb with
      | none => true
      | some gn => decide (tg < gn)
    if doUpd then
      { openL := if nb ∈ st.openL then st.openL else st.openL ++ [nb],
        closed := st.closed,
        cameFrom := (nb, current) :: st.cameFrom,
        g := (nb, tg) :: st.g,
        f := (nb, tg + heuristic nb endC) :: st.f }
    else st

/-- The JS reconstruction loop unshifting cameFrom links, as a recursion on
fuel that the caller sizes to dominate the chain length. -/
def reconstructPath (cameFrom : List ((ℤ × ℤ) × (ℤ × ℤ))) :
    ℕ → (ℤ × ℤ) → List (ℤ × ℤ)
  | 0, c => [c]
  | fuel + 1, c =>
      match plookup cameFrom c with
      | none => [c]
      | some p => reconstructPath cameFrom fuel p ++ [c]

/-- One comparator-ordered pass of the while loop: sort open by f, shift the
least, return the reconstructed path on goal arrival, otherwise close the
cell and relax its four neighbours. -/
def astarLoop (grid : List (List Bool)) (endC : ℤ × ℤ) :
    ℕ → AState → Option (List (ℤ × ℤ))
  | 0, _ => none
  | fuel + 1, st =>
      match List.insertionSort
          (fun a b => (plookup st.f a).getD 0 ≤ (plookup st.f b).getD 0) st.openL with
      | [] => none
      | current :: rest =>
          if current = endC then
            some (reconstructPath st.cameFrom (st.cameFrom.length + 1) current)
          else
            astarLoop grid endC fuel
              ((neighborsOf current).foldl (relaxOne grid endC current)
                { st with openL := rest, closed := current :: st.closed })

/-- `findPath(start, end)`: A-star seeded with the start cell; null (none)
when the open list empties. -/
def findPath (grid : List (List Bool)) (start endC : ℤ × ℤ) :
    Option (List (ℤ × ℤ)) :=
  astarLoop grid endC (grid.length * gridWidth grid + 1)
    { openL := [start], closed := [], cameFrom := [],
      g := [(start, 0)], f := [(start, heuristic start endC)] }

/-- The frontier-free part of the A-star loop invariant. g scores are
attained by actual walks; f is g plus the heuristic; closed cells carry
optimal scores; open and closed are disjoint duplicate-free score-carrying
lists tracking the start; the goal is never closed; cameFrom links are
adjacency edges with strictly decreasing g, rooted at the start and bounding
every score by the number of links. -/
structure AInvCore (grid : List (List Bool)) (start endC : ℤ × ℤ) (st : AState) :
    Prop where
  gStart : plookup st.g start = some 0
  gSound : ∀ c gc, plookup st.g c = some gc → Walk (walkable grid) start c gc
  fOfg : ∀ c gc, plookup st.g c = some gc →
      plookup st.f c = some (gc + heuristic c endC)
  openDom : ∀ c ∈ st.openL, ∃ gc, plookup st.g c = some gc
  closedDom : ∀ c ∈ st.closed, ∃ gc, plookup st.g c = some gc
  closedOpt : ∀ c ∈ st.closed, ∀ gc, plookup st.g c = some gc →
      ∀ m, Walk (walkable grid) start c m → gc ≤ m
  disj : ∀ c ∈ st.openL, c ∉ st.closed
  startIn : start ∈ st.openL ∨ start ∈ st.closed
  endNC : endC ∉ st.closed
  closedND : st.closed.Nodup
  openND : st.openL.Nodup
  cfG : ∀ c p, plookup st.cameFrom c = some p → ∃ gc gp,
      plookup st.g c = some gc ∧ plookup st.g p = some gp ∧ gp < gc ∧
      adjCell p c ∧ walkable grid c = true
  cfStart : plookup st.cameFrom start = none
  gCF : ∀ c gc, plookup st.g c = some gc → c ≠ start →
      ∃ p, plookup st.cameFrom c = some p
  gBound : ∀ c gc, plookup st.g c = some gc → gc ≤ st.cameFrom.length
  gDom : ∀ c gc, plookup st.g c = some gc → c ∈ st.openL ∨ c ∈ st.closed

/-- The full A-star loop invariant: the core plus the frontier property, that
every improvable neighbour of a closed cell is in the open list with a score
at most one above its closed neighbour. -/
structure AInv (grid : List (List Bool)) (start endC : ℤ × ℤ) (st : AState)
    extends AInvCore grid start endC st : Prop where
  frontier : ∀ c ∈ st.closed, ∀ gc, plookup st.g c = some gc →
      ∀ nb ∈ neighborsOf c, walkable grid nb = true → nb ∉ st.closed →
      nb ∈ st.openL ∧ ∃ gn, plookup st.g nb = some gn ∧ gn ≤ gc + 1

/-- The invariant of the neighbour-relaxation fold: the core holds, the
closed list is the just-closed current cell over the old closed list, the
current cell keeps its pop-time score, and the frontier property holds
except that neighbours of the current cell still pending relaxation are
exempt. -/
structure FoldInv (grid : List (List Bool)) (start endC current : ℤ × ℤ)
    (closed0 : List (ℤ × ℤ)) (gcur : ℕ) (st : AState) (pending : List (ℤ × ℤ))
    extends AInvCore grid start endC st : Prop where
  closedEq : st.closed = current :: closed0
  gCur : plookup st.g current = some gcur
  frontierW : ∀ c ∈ st.closed, ∀ gc, plookup st.g c = some gc →
      ∀ nb ∈ neighborsOf c, walkable grid nb = true → nb ∉ st.closed →
      ((c = current ∧ nb ∈ pending) ∨
        (nb ∈ st.openL ∧ ∃ gn, plookup st.g nb = some gn ∧ gn ≤ gc + 1))

end NexusMaze

namespace NexusMaze

/-! # Theorems -/

/-- C10: for every maze size and every integer grid cell, worldToGrid applied
to the world point returned by gridToWorld yields exactly the original cell. -/
theorem worldToGrid_gridToWorld (size : ℕ) (gx gz : ℤ) :
    worldToGrid size (gridToWorld size gx gz).1 (gridToWorld size gx gz).2 = (gx, gz) := by
  have key : ∀ g : ℤ, (((g : ℚ) - (size : ℚ) / 2) * CELL_SIZE + CELL_SIZE / 2) / CELL_SIZE
      + (size : ℚ) / 2 = (g : ℚ) + 1 / 2 := by
    intro g
    rw [CELL_SIZE]
    field_simp
    ring
  have hfl : ∀ g : ℤ, ⌊(g : ℚ) + 1 / 2⌋ = g := by
    intro g
    have h2 : ⌊(1 : ℚ) / 2⌋ = 0 := by norm_num [Int.floor_eq_iff]
    rw [add_comm, Int.floor_add_int, h2, zero_add]
  simp only [worldToGrid, gridToWorld, key, hfl]

/-- C9 counterexample: assigning 150 through the health setter on the default
state (health already 100) clamps as expected but emits no change event,
refuting the claim that a change event is emitted on every assignment.
Moreover the score setter stores a negative value unclamped. -/
theorem setters_claim_false :
    (setHealth GameState.reset 150).2 = [] ∧
    (setHealth GameState.reset 150).1.health = 100 ∧
    (setScore GameState.reset (-5)).1.score = -5 := by
  refine ⟨?_, ?_, ?_⟩ <;> norm_num [setHealth, setScore, GameState.reset]

/-- C9 amended: the health and energy setters clamp the value to [0, 100] and
emit a change event exactly when the stored value changes; the score setter
stores the raw value unclamped and emits scoreChanged on every assignment. -/
theorem setters_clamp_emit (st : GameState) (v : ℚ) :
    ((setScore st v).1.score = v ∧ (setScore st v).2 = [.scoreChanged v]) ∧
    ((setHealth st v).1.health = max 0 (min 100 v) ∧
      (setHealth st v).2 =
        if max 0 (min 100 v) = st.health then [] else [.healthChanged (max 0 (min 100 v))]) ∧
    ((setEnergy st v).1.energy = max 0 (min 100 v) ∧
      (setEnergy st v).2 =
        if max 0 (min 100 v) = st.energy then [] else [.energyChanged (max 0 (min 100 v))]) := by
  refine ⟨⟨rfl, rfl⟩, ⟨?_, ?_⟩, ⟨?_, ?_⟩⟩ <;>
    · simp only [setHealth, setEnergy]
      split <;> simp_all

/-- C7 counterexample: with separating normal (1, 0) (player at distance 1 to
the right of the enemy), the knockback added to the player's velocity has
squared magnitude 225 while the knockback added to the enemy's velocity has
squared magnitude 225/4: they are not equal in magnitude. -/
theorem knockback_not_symmetric :
    sqNorm (knockbackDeltas 1 0 1).1 = 225 ∧
    sqNorm (knockbackDeltas 1 0 1).2 = 225 / 4 ∧
    sqNorm (knockbackDeltas 1 0 1).1 ≠ sqNorm (knockbackDeltas 1 0 1).2 := by
  refine ⟨?_, ?_, ?_⟩ <;> norm_num [knockbackDeltas, sqNorm, ENEMY_KNOCKBACK_FORCE]

/-- C7 amended: the two knockbacks are opposite in direction along the
separating normal but not equal in magnitude: the enemy velocity delta is
exactly minus one half of the player velocity delta, so on a unit normal the
player receives squared magnitude 225 and the enemy 225/4. -/
theorem knockback_half_opposite (dx dz dist : ℚ) :
    (knockbackDeltas dx dz dist).2.1 = -(1 / 2) * (knockbackDeltas dx dz dist).1.1 ∧
    (knockbackDeltas dx dz dist).2.2 = -(1 / 2) * (knockbackDeltas dx dz dist).1.2 ∧
    (dist * dist = dx * dx + dz * dz → dist ≠ 0 →
      sqNorm (knockbackDeltas dx dz dist).1 = 225 ∧
      sqNorm (knockbackDeltas dx dz dist).2 = 225 / 4) := by
  refine ⟨by simp only [knockbackDeltas]; ring, by simp only [knockbackDeltas]; ring,
    fun hpyth hne => ⟨?_, ?_⟩⟩ <;>
    · simp only [knockbackDeltas, sqNorm]
      field_simp [ENEMY_KNOCKBACK_FORCE]
      nlinarith [hpyth]

theorem knockback_half_opposite_witness :
    (1 : ℚ) * 1 = 1 * 1 + 0 * 0 ∧
    sqNorm (knockbackDeltas 1 0 1).1 = 225 ∧ sqNorm (knockbackDeltas 1 0 1).2 = 225 / 4 :=
  ⟨by norm_num, (knockback_half_opposite 1 0 1).2.2 (by norm_num) (by norm_num)⟩

/-- The gameWon phase with no pending scheduled level creation is absorbing:
no later frame or timer event changes the phase or runs level creation. -/
theorem runEvents_gameWon (evs : List GameEvent) :
    ∀ st : PhaseState, st.phase = .gameWon → st.pendingRegen = false →
      runEvents st evs = (st, false) := by
  induction evs with
  | nil => intro st _ _; rfl
  | cons ev rest ih =>
      intro st hp hr
      have hstep : stepEvent st ev = (st, false) := by
        cases ev with
        | frame g => simp [stepEvent, hp]
        | timerFire => simp [stepEvent, hr]
      simp [runEvents, hstep, ih st hp hr]

/-- C8: from phase playing at level 19 with victory threshold 20 and no
pending level regeneration, the first goal arrival sets the phase to gameWon
at level 20 without scheduling regeneration, and no subsequent sequence of
frame or timer events ever changes the phase or runs level creation. -/
theorem goal_victory_no_regen :
    (goalArrival ⟨.playing, 19, false⟩).phase = .gameWon ∧
    (goalArrival ⟨.playing, 19, false⟩).level = 20 ∧
    (goalArrival ⟨.playing, 19, false⟩).pendingRegen = false ∧
    ∀ evs : List GameEvent,
      (runEvents (goalArrival ⟨.playing, 19, false⟩) evs).1.phase = .gameWon ∧
      (runEvents (goalArrival ⟨.playing, 19, false⟩) evs).2 = false := by
  have h1 : goalArrival ⟨.playing, 19, false⟩ = ⟨.gameWon, 20, false⟩ := by
    simp [goalArrival, VICTORY_LEVEL]
  refine ⟨by rw [h1], by rw [h1], by rw [h1], fun evs => ?_⟩
  rw [h1, runEvents_gameWon evs ⟨.gameWon, 20, false⟩ rfl rfl]
  exact ⟨rfl, rfl⟩

/-- Filtering a list yields a subset of it. -/
theorem filter_sub {α : Type} (p : α → Bool) (l : List α) : l.filter p ⊆ l :=
  fun _ ha => (List.mem_filter.mp ha).1

/-- One pass of the effect-timer loop never adds entities, component
memberships or timers. -/
theorem effectsStep_subset (now : ℤ) (s : EffState) (t : Timer) :
    (effectsStep now s t).entities ⊆ s.entities ∧
    (effectsStep now s t).comps ⊆ s.comps ∧
    (effectsStep now s t).timers ⊆ s.timers := by
  unfold effectsStep
  split
  · have h0 : (if t.target ∈ s.entities then removeComponentEff s t.comp t.target
        else s).entities ⊆ s.entities ∧
        (if t.target ∈ s.entities then removeComponentEff s t.comp t.target
          else s).comps ⊆ s.comps ∧
        (if t.target ∈ s.entities then removeComponentEff s t.comp t.target
          else s).timers ⊆ s.timers := by
      split
      · exact ⟨fun a ha => ha, filter_sub _ _, fun a ha => ha⟩
      · exact ⟨fun a ha => ha, fun a ha => ha, fun a ha => ha⟩
    exact ⟨fun a ha => h0.1 (filter_sub _ _ ha), fun a ha => h0.2.1 (filter_sub _ _ ha),
      fun a ha => h0.2.2 (filter_sub _ _ ha)⟩
  · exact ⟨fun a ha => ha, fun a ha => ha, fun a ha => ha⟩

/-- Folding the effect-timer loop over any snapshot only shrinks the store. -/
theorem effectsFold_subset (now : ℤ) (l : List Timer) :
    ∀ s : EffState,
      (l.foldl (effectsStep now) s).entities ⊆ s.entities ∧
      (l.foldl (effectsStep now) s).comps ⊆ s.comps ∧
      (l.foldl (effectsStep now) s).timers ⊆ s.timers := by
  induction l with
  | nil => exact fun s => ⟨fun a ha => ha, fun a ha => ha, fun a ha => ha⟩
  | cons u rest ih =>
      intro s
      have hstep := effectsStep_subset now s u
      have hrec := ih (effectsStep now s u)
      exact ⟨hrec.1.trans hstep.1, hrec.2.1.trans hstep.2.1, hrec.2.2.trans hstep.2.2⟩

/-- If a timer in the snapshot has expired strictly before now, folding the
effect-timer loop destroys its timer entity, and, provided its target is live
and no snapshot timer carries the target as its own timer entity, removes the
named component from the target. -/
theorem effectsFold_fires (now : ℤ) (t : Timer) :
    ∀ (l : List Timer) (s : EffState), t ∈ l → t.expiration < now →
      (∀ u ∈ l, t.target ≠ u.tid) →
      ((∀ u ∈ (l.foldl (effectsStep now) s).timers, u.tid ≠ t.tid) ∧
       t.tid ∉ (l.foldl (effectsStep now) s).entities ∧
       (t.target ∈ s.entities → (t.comp, t.target) ∉ (l.foldl (effectsStep now) s).comps)) := by
  intro l
  induction l with
  | nil => intro s hmem; exact absurd hmem (List.not_mem_nil t)
  | cons u rest ih =>
      intro s hmem hexp htgt
      by_cases hu : u = t
      · subst hu
        have hstep : effectsStep now s u =
            removeEntityEff
              (if u.target ∈ s.entities then removeComponentEff s u.comp u.target else s)
              u.tid := by
          unfold effectsStep
          rw [if_pos hexp]
        set s1 := effectsStep now s u with hs1
        have hsub := effectsFold_subset now rest s1
        have htimers : ∀ v ∈ s1.timers, v.tid ≠ u.tid := by
          intro v hv
          rw [hstep] at hv
          simp only [removeEntityEff, List.mem_filter, decide_eq_true_eq] at hv
          exact hv.2
        have hents : u.tid ∉ s1.entities := by
          rw [hstep]
          simp only [removeEntityEff, List.mem_filter, decide_eq_true_eq]
          intro h
          exact h.2 rfl
        have hcomps : u.target ∈ s.entities → (u.comp, u.target) ∉ s1.comps := by
          intro hin
          rw [hstep]
          simp only [removeEntityEff, if_pos hin, removeComponentEff, List.mem_filter,
            decide_eq_true_eq]
          intro h
          exact h.1.2 rfl
        refine ⟨fun v hv => htimers v (hsub.2.2 hv), fun h => hents (hsub.1 h),
          fun hin h => hcomps hin (hsub.2.1 h)⟩
      · have hmem' : t ∈ rest := by
          rcases List.mem_cons.mp hmem with h | h
          · exact absurd h.symm hu
          · exact h
        have hpres : t.target ∈ s.entities → t.target ∈ (effectsStep now s u).entities := by
          intro hin
          unfold effectsStep removeEntityEff removeComponentEff
          split
          · split <;>
              · simp only [List.mem_filter, decide_eq_true_eq]
                exact ⟨hin, htgt u (List.mem_cons_self u rest)⟩
          · exact hin
        have := ih (effectsStep now s u) hmem' hexp
          (fun v hv => htgt v (List.mem_cons_of_mem u hv))
        exact ⟨this.1, this.2.1, fun hin => this.2.2 (hpres hin)⟩

/-- If a timer has not yet strictly expired, folding the effect-timer loop
over a snapshot in which every other timer has a distinct timer entity, in
which no other timer targets the same (target, component) pair, and in which
no timer entity is the target, keeps both the timer and the component. -/
theorem effectsFold_keeps (now : ℤ) (t : Timer) :
    ∀ (l : List Timer) (s : EffState), now ≤ t.expiration → t ∈ s.timers →
      (∀ u ∈ l, u = t ∨ u.tid ≠ t.tid) →
      (∀ u ∈ l, u = t ∨ ¬(u.target = t.target ∧ u.comp = t.comp)) →
      (∀ u ∈ l, t.target ≠ u.tid) →
      (t ∈ (l.foldl (effectsStep now) s).timers ∧
       ((t.comp, t.target) ∈ s.comps →
         (t.comp, t.target) ∈ (l.foldl (effectsStep now) s).comps)) := by
  intro l
  induction l with
  | nil => intro s _ hmem _ _ _; exact ⟨hmem, fun h => h⟩
  | cons u rest ih =>
      intro s hexp hmem htid huniq htgt
      have hkeep : t ∈ (effectsStep now s u).timers ∧
          ((t.comp, t.target) ∈ s.comps → (t.comp, t.target) ∈ (effectsStep now s u).comps) := by
        by_cases hu : u = t
        · subst hu
          have : ¬ u.expiration < now := not_lt.mpr hexp
          unfold effectsStep
          rw [if_neg this]
          exact ⟨hmem, fun h => h⟩
        · unfold effectsStep removeEntityEff removeComponentEff
          split
          · have htid' : t.tid ≠ u.tid := by
              rcases htid u (List.mem_cons_self u rest) with h | h
              · exact absurd h hu
              · exact fun he => h he.symm
            have hpair : (t.comp, t.target) ≠ (u.comp, u.target) := by
              rcases huniq u (List.mem_cons_self u rest) with h | h
              · exact absurd h hu
              · intro he
                have h1 : t.comp = u.comp := congrArg Prod.fst he
                have h2 : t.target = u.target := congrArg Prod.snd he
                exact h ⟨h2.symm, h1.symm⟩
            constructor
            · split <;>
                · simp only [List.mem_filter, decide_eq_true_eq]
                  exact ⟨hmem, htid'⟩
            · intro hin
              split <;>
                simp only [List.mem_filter, decide_eq_true_eq]
              · exact ⟨⟨hin, hpair⟩, htgt u (List.mem_cons_self u rest)⟩
              · exact ⟨hin, htgt u (List.mem_cons_self u rest)⟩
          · exact ⟨hmem, fun h => h⟩
      have := ih (effectsStep now s u) hexp hkeep.1
        (fun v hv => htid v (List.mem_cons_of_mem u hv))
        (fun v hv => huniq v (List.mem_cons_of_mem u hv))
        (fun v hv => htgt v (List.mem_cons_of_mem u hv))
      exact ⟨this.1, fun hin => this.2 (hkeep.2 hin)⟩

/-- C3 counterexample: a timer with expiration 5 on target entity 1 carrying
component kind 0 is not fired at the tick with now = 5, although now ≥ E
holds there; the component is removed only at the strictly later tick 6. -/
theorem effect_expiry_at_exact_time :
    effectsSystem 5 ⟨[1, 2], [(0, 1)], [⟨2, 1, 0, 5⟩]⟩ = ⟨[1, 2], [(0, 1)], [⟨2, 1, 0, 5⟩]⟩ ∧
    (0, 1) ∈ (effectsSystem 5 ⟨[1, 2], [(0, 1)], [⟨2, 1, 0, 5⟩]⟩).comps ∧
    effectsSystem 6 ⟨[1, 2], [(0, 1)], [⟨2, 1, 0, 5⟩]⟩ = ⟨[1], [], []⟩ := by
  refine ⟨?_, ?_, ?_⟩ <;> decide

/-- C3 amended: the effect-timer step removes the named component from the
target and destroys the timer entity at a tick with now strictly greater than
the expiration time, and never at a tick with now ≤ expiration; if the target
no longer exists the removal is skipped but the timer entity is still
destroyed. Wellformedness of the snapshot: timer entity ids are distinct, no
timer entity is any timer's target, and no second timer revokes the same
component from the same target. -/
theorem effect_timer_strict_expiry (now : ℤ) (st : EffState) (t : Timer)
    (hmem : t ∈ st.timers)
    (hnodup : (st.timers.map Timer.tid).Nodup)
    (htgt : ∀ u ∈ st.timers, t.target ≠ u.tid)
    (huniq : ∀ u ∈ st.timers, u.target = t.target → u.comp = t.comp → u = t) :
    (t.expiration < now →
      (∀ u ∈ (effectsSystem now st).timers, u.tid ≠ t.tid) ∧
      t.tid ∉ (effectsSystem now st).entities ∧
      (t.target ∈ st.entities → (t.comp, t.target) ∉ (effectsSystem now st).comps)) ∧
    (now ≤ t.expiration →
      t ∈ (effectsSystem now st).timers ∧
      ((t.comp, t.target) ∈ st.comps → (t.comp, t.target) ∈ (effectsSystem now st).comps)) := by
  constructor
  · intro hexp
    exact effectsFold_fires now t st.timers st hmem hexp htgt
  · intro hexp
    have htid : ∀ u ∈ st.timers, u = t ∨ u.tid ≠ t.tid := by
      intro u hu
      by_cases h : u.tid = t.tid
      · exact Or.inl (List.inj_on_of_nodup_map hnodup hu hmem h)
      · exact Or.inr h
    have huniq' : ∀ u ∈ st.timers, u = t ∨ ¬(u.target = t.target ∧ u.comp = t.comp) := by
      intro u hu
      by_cases h : u.target = t.target ∧ u.comp = t.comp
      · exact Or.inl (huniq u hu h.1 h.2)
      · exact Or.inr h
    exact effectsFold_keeps now t st.timers st hexp hmem htid huniq' htgt

theorem effect_timer_strict_expiry_witness :
    ((5 : ℤ) < 6 ∧ (⟨2, 1, 0, 5⟩ : Timer) ∈ ([⟨2, 1, 0, 5⟩] : List Timer)) ∧
    ((∀ u ∈ (effectsSystem 6 ⟨[1, 2], [(0, 1)], [⟨2, 1, 0, 5⟩]⟩).timers, u.tid ≠ 2) ∧
      2 ∉ (effectsSystem 6 ⟨[1, 2], [(0, 1)], [⟨2, 1, 0, 5⟩]⟩).entities ∧
      (1 ∈ [1, 2] → (0, 1) ∉ (effectsSystem 6 ⟨[1, 2], [(0, 1)], [⟨2, 1, 0, 5⟩]⟩).comps)) :=
  ⟨⟨by decide, by decide⟩,
    (effect_timer_strict_expiry 6 ⟨[1, 2], [(0, 1)], [⟨2, 1, 0, 5⟩]⟩ ⟨2, 1, 0, 5⟩
      (by decide) (by decide) (by decide) (by decide)).1 (by decide)⟩

/-- C5 amended: the maze sizes the level lifecycle requests, namely
min(INITIAL_MAZE_SIZE + floor(level / 2) * 4, 71), are always odd and at
least 5 (indeed at least 31), so the generator, which itself performs no
dimension validation, is never invoked on even or undersized dimensions by
the level lifecycle. -/
theorem level_maze_size_always_valid (level : ℕ) :
    Odd (mazeSizeForLevel level) ∧ 5 ≤ mazeSizeForLevel level := by
  unfold mazeSizeForLevel INITIAL_MAZE_SIZE
  constructor
  · rcases Nat.lt_or_ge (31 + level / 2 * 4) 71 with h | h
    · rw [min_eq_left (Nat.le_of_lt h)]
      exact ⟨15 + level / 2 * 2, by ring⟩
    · rw [min_eq_right h]
      exact ⟨35, by norm_num⟩
  · rcases Nat.lt_or_ge (31 + level / 2 * 4) 71 with h | h
    · rw [min_eq_left (Nat.le_of_lt h)]; omega
    · rw [min_eq_right h]; omega

theorem level_maze_size_always_valid_witness :
    Odd (mazeSizeForLevel 3) ∧ 5 ≤ mazeSizeForLevel 3 :=
  level_maze_size_always_valid 3

/-- A successful cache lookup names a registered (key, cache) pair. -/
theorem lookupKey_mem : ∀ (l : List (List ℕ × List ℕ)) (key c : List ℕ),
    lookupKey key l = some c → (key, c) ∈ l := by
  intro l
  induction l with
  | nil => intro key c h; simp [lookupKey] at h
  | cons q rest ih =>
      intro key c h
      unfold lookupKey at h
      by_cases hq : q.1 = key
      · rw [if_pos hq] at h
        have hc : q.2 = c := Option.some.inj h
        have hqe : (key, c) = q := by
          obtain ⟨a, b⟩ := q
          simp only at hq hc
          rw [hq, hc]
        rw [hqe]
        exact List.mem_cons_self q rest
      · rw [if_neg hq] at h
        exact List.mem_cons_of_mem q (ih key c h)

/-- Pointwise equal predicates give equal all-tests over a list. -/
theorem all_congr_on {α : Type} (l : List α) (f g : α → Bool)
    (h : ∀ x ∈ l, f x = g x) : l.all f = l.all g := by
  induction l with
  | nil => rfl
  | cons a t ih =>
      simp only [List.all_cons, h a (List.mem_cons_self a t),
        ih (fun x hx => h x (List.mem_cons_of_mem a hx))]

/-- Membership in a sorted query key agrees with membership in the component
list it was built from. -/
theorem mem_sortKey (ks : List ℕ) (k : ℕ) : k ∈ sortKey ks ↔ k ∈ ks :=
  (List.perm_insertionSort (· ≤ ·) ks).mem_iff

/-- Cache maintenance does not touch the entity set. -/
theorem updateCaches_entities (st : SimpleECS) (id k : ℕ) :
    (updateCaches st id k).entities = st.entities := rfl

/-- Cache maintenance does not touch component data. -/
theorem hasComp_updateCaches (st : SimpleECS) (id k j i : ℕ) :
    hasComp (updateCaches st id k) j i = hasComp st j i := rfl

/-- Cache maintenance does not touch the id counter. -/
theorem updateCaches_nextId (st : SimpleECS) (id k : ℕ) :
    (updateCaches st id k).nextEntityId = st.nextEntityId := rfl

/-- Cache maintenance does not touch component tables. -/
theorem updateCaches_compData (st : SimpleECS) (id k : ℕ) :
    (updateCaches st id k).compData = st.compData := rfl

/-- Master lemma for `#updateCaches`: if the store st1 differs from a store
st0 satisfying the invariant only in the component bindings of one live
entity id on one kind k, then running cache maintenance for (id, k) on st1
restores the invariant. -/
theorem updateCaches_inv (st0 st1 : SimpleECS) (id k : ℕ)
    (hent : st1.entities = st0.entities)
    (hqc : st1.queryCache = st0.queryCache)
    (hnext : st1.nextEntityId = st0.nextEntityId)
    (hother : ∀ j id0, (j ≠ k ∨ id0 ≠ id) → hasComp st1 j id0 = hasComp st0 j id0)
    (hid : id ∈ st0.entities)
    (hdata : ∀ j : ℕ, ∀ p ∈ st1.compData j, p.1 ∈ st0.entities)
    (hinv : EcsInv st0) :
    EcsInv (updateCaches st1 id k) := by
  obtain ⟨hc, hd, hf, hk⟩ := hinv
  refine ⟨?_, ?_, ?_, ?_⟩
  · intro q' hq' id0
    simp only [updateCaches, hqc, List.mem_map] at hq'
    obtain ⟨⟨key, cache⟩, hqmem, rfl⟩ := hq'
    simp only [updateCaches_entities, hasComp_updateCaches, hent]
    have hall_eq : ∀ id1 : ℕ, id1 ≠ id →
        (key.all (fun j => hasComp st1 j id1) = key.all (fun j => hasComp st0 j id1)) :=
      fun id1 hne => all_congr_on key _ _ (fun j _ => hother j id1 (Or.inr hne))
    have hcache : ∀ id1 : ℕ, id1 ∈ cache ↔
        (id1 ∈ st0.entities ∧ key.all (fun j => hasComp st0 j id1) = true) :=
      fun id1 => hc (key, cache) hqmem id1
    by_cases hkk : k ∈ key
    · by_cases hall : key.all (fun j => hasComp st1 j id) = true
      · simp only [if_pos hkk, if_pos hall]
        show id0 ∈ (if id ∈ cache then cache else id :: cache) ↔
            id0 ∈ st0.entities ∧ key.all (fun j => hasComp st1 j id0) = true
        by_cases hid0 : id0 = id
        · subst hid0
          refine ⟨fun _ => ⟨hid, hall⟩, fun _ => ?_⟩
          split
          · assumption
          · exact List.mem_cons_self id0 cache
        · have hmem : (id0 ∈ (if id ∈ cache then cache else id :: cache)) ↔ id0 ∈ cache := by
            split
            · exact Iff.rfl
            · exact ⟨fun h => (List.mem_cons.mp h).resolve_left hid0,
                fun h => List.mem_cons_of_mem id h⟩
          rw [hmem, hall_eq id0 hid0]
          exact hcache id0
      · simp only [if_pos hkk, if_neg hall]
        show id0 ∈ cache.filter (fun e => e ≠ id) ↔
            id0 ∈ st0.entities ∧ key.all (fun j => hasComp st1 j id0) = true
        by_cases hid0 : id0 = id
        · subst hid0
          constructor
          · intro h
            have := (List.mem_filter.mp h).2
            simp at this
          · intro h
            exact absurd h.2 hall
        · have hmem : (id0 ∈ cache.filter (fun e => e ≠ id)) ↔ id0 ∈ cache := by
            simp only [List.mem_filter, decide_eq_true_eq]
            exact ⟨fun h => h.1, fun h => ⟨h, hid0⟩⟩
          rw [hmem, hall_eq id0 hid0]
          exact hcache id0
    · simp only [if_neg hkk]
      show id0 ∈ cache ↔ id0 ∈ st0.entities ∧ key.all (fun j => hasComp st1 j id0) = true
      have hALL : key.all (fun j => hasComp st1 j id0) = key.all (fun j => hasComp st0 j id0) := by
        by_cases hid0 : id0 = id
        · subst hid0
          exact all_congr_on key _ _
            (fun j hj => hother j id0 (Or.inl (fun he => hkk (he ▸ hj))))
        · exact hall_eq id0 hid0
      rw [hALL]
      exact hcache id0
  · intro j p hp
    rw [updateCaches_compData] at hp
    rw [updateCaches_entities, hent]
    exact hdata j p hp
  · intro i hi
    rw [updateCaches_entities, hent] at hi
    rw [updateCaches_nextId, hnext]
    exact hf i hi
  · intro q' hq'
    simp only [updateCaches, hqc, List.mem_map] at hq'
    obtain ⟨⟨key, cache⟩, hqmem, rfl⟩ := hq'
    have hne := hk (key, cache) hqmem
    by_cases hkk : k ∈ key
    · by_cases hall : key.all (fun j => hasComp st1 j id) = true
      · simp only [if_pos hkk, if_pos hall]
        exact hne
      · simp only [if_pos hkk, if_neg hall]
        exact hne
    · simp only [if_neg hkk]
      exact hne

/-- Component possession unfolded to an existence statement. -/
theorem hasComp_iff (st : SimpleECS) (j id0 : ℕ) :
    hasComp st j id0 = true ↔ ∃ p ∈ st.compData j, p.1 = id0 := by
  simp [hasComp, List.any_eq_true]

/-- The entity issued by addEntity holds no component. -/
theorem hasComp_fresh (st : SimpleECS) (hinv : EcsInv st) (j : ℕ) :
    hasComp st j st.nextEntityId = false := by
  obtain ⟨hc, hd, hf, hk⟩ := hinv
  cases hx : hasComp st j st.nextEntityId
  · rfl
  · obtain ⟨p, hp, hpe⟩ := (hasComp_iff st j st.nextEntityId).mp hx
    have := hf p.1 (hd j p hp)
    rw [hpe] at this
    exact absurd this (lt_irrefl _)

/-- addEntity preserves the store invariant. -/
theorem addEntity_inv (st : SimpleECS) (hinv : EcsInv st) : EcsInv (addEntity st) := by
  obtain ⟨hc, hd, hf, hk⟩ := hinv
  refine ⟨?_, ?_, ?_, ?_⟩
  · intro q hq id0
    show id0 ∈ q.2 ↔ id0 ∈ st.nextEntityId :: st.entities ∧
        (q.1.all fun j => hasComp st j id0) = true
    by_cases hid0 : id0 = st.nextEntityId
    · subst hid0
      constructor
      · intro h
        have h2 := (hc q hq st.nextEntityId).mp h
        exact absurd (hf st.nextEntityId h2.1) (lt_irrefl st.nextEntityId)
      · intro h
        obtain ⟨k0, hk0⟩ := List.exists_mem_of_ne_nil q.1 (hk q hq)
        have hallk := List.all_eq_true.mp h.2 k0 hk0
        rw [hasComp_fresh st ⟨hc, hd, hf, hk⟩ k0] at hallk
        exact absurd hallk (by simp)
    · rw [hc q hq id0]
      exact ⟨fun h => ⟨List.mem_cons_of_mem _ h.1, h.2⟩,
        fun h => ⟨(List.mem_cons.mp h.1).resolve_left hid0, h.2⟩⟩
  · intro j p hp
    exact List.mem_cons_of_mem _ (hd j p hp)
  · intro i hi
    show i < st.nextEntityId + 1
    rcases List.mem_cons.mp hi with h | h
    · omega
    · exact Nat.lt_succ_of_lt (hf i h)
  · exact hk

/-- removeEntity preserves the store invariant. -/
theorem removeEntity_inv (st : SimpleECS) (id : ℕ) (hinv : EcsInv st) :
    EcsInv (removeEntity st id) := by
  obtain ⟨hc, hd, hf, hk⟩ := hinv
  unfold removeEntity
  split
  · rename_i hmem
    have hhc : ∀ j id0, id0 ≠ id →
        ((((st.compData j).filter (fun p => p.1 ≠ id)).any (fun p => p.1 = id0)) =
          hasComp st j id0) := by
      intro j id0 hne
      rw [Bool.eq_iff_iff]
      simp only [List.any_eq_true, List.mem_filter, decide_eq_true_eq, hasComp]
      exact ⟨fun ⟨p, hp, hpe⟩ => ⟨p, hp.1, hpe⟩,
        fun ⟨p, hp, hpe⟩ => ⟨p, ⟨hp, by rw [hpe]; exact hne⟩, hpe⟩⟩
    refine ⟨?_, ?_, ?_, ?_⟩
    · intro q' hq' id0
      simp only [List.mem_map] at hq'
      obtain ⟨⟨key, cache⟩, hqmem, rfl⟩ := hq'
      show id0 ∈ cache.filter (fun e => e ≠ id) ↔
          id0 ∈ st.entities.filter (fun e => e ≠ id) ∧
            (key.all fun j => ((st.compData j).filter (fun p => p.1 ≠ id)).any
              (fun p => p.1 = id0)) = true
      by_cases hid0 : id0 = id
      · subst hid0
        constructor
        · intro h
          have := (List.mem_filter.mp h).2
          simp at this
        · intro h
          have := (List.mem_filter.mp h.1).2
          simp at this
      · have hm1 : (id0 ∈ cache.filter (fun e => e ≠ id)) ↔ id0 ∈ cache := by
          simp only [List.mem_filter, decide_eq_true_eq]
          exact ⟨fun h => h.1, fun h => ⟨h, hid0⟩⟩
        have hm2 : (id0 ∈ st.entities.filter (fun e => e ≠ id)) ↔ id0 ∈ st.entities := by
          simp only [List.mem_filter, decide_eq_true_eq]
          exact ⟨fun h => h.1, fun h => ⟨h, hid0⟩⟩
        have hall : (key.all fun j => ((st.compData j).filter (fun p => p.1 ≠ id)).any
            (fun p => p.1 = id0)) = (key.all fun j => hasComp st j id0) :=
          all_congr_on key _ _ (fun j _ => hhc j id0 hid0)
        rw [hm1, hall]
        rw [hc (key, cache) hqmem id0]
        exact ⟨fun h => ⟨hm2.mpr h.1, h.2⟩, fun h => ⟨hm2.mp h.1, h.2⟩⟩
    · intro j p hp
      have h1 := List.mem_filter.mp hp
      have h2 := hd j p h1.1
      simp only [List.mem_filter, decide_eq_true_eq]
      exact ⟨h2, by simpa using h1.2⟩
    · intro i hi
      exact hf i (List.mem_filter.mp hi).1
    · intro q' hq'
      simp only [List.mem_map] at hq'
      obtain ⟨⟨key, cache⟩, hqmem, rfl⟩ := hq'
      exact hk (key, cache) hqmem
  · exact ⟨hc, hd, hf, hk⟩

/-- addComponent on a live entity preserves the store invariant. -/
theorem addComponent_inv (st : SimpleECS) (k id v : ℕ) (hid : id ∈ st.entities)
    (hinv : EcsInv st) : EcsInv (addComponent st k id v) := by
  show EcsInv (updateCaches { st with compData := fun j =>
    if j = k then (id, v) :: (st.compData k).filter (fun p => p.1 ≠ id) else st.compData j }
    id k)
  refine updateCaches_inv st _ id k rfl rfl rfl ?_ hid ?_ hinv
  · intro j id0 hcase
    rw [Bool.eq_iff_iff]
    simp only [hasComp, List.any_eq_true, decide_eq_true_eq]
    rcases hcase with hj | hi
    · rw [if_neg hj]
    · constructor
      · intro ⟨p, hp, hpe⟩
        by_cases hj : j = k
        · rw [if_pos hj] at hp
          rcases List.mem_cons.mp hp with h | h
          · rw [h] at hpe
            exact absurd hpe.symm hi
          · rw [hj]
            exact ⟨p, (List.mem_filter.mp h).1, hpe⟩
        · rw [if_neg hj] at hp
          exact ⟨p, hp, hpe⟩
      · intro ⟨p, hp, hpe⟩
        by_cases hj : j = k
        · rw [if_pos hj]
          refine ⟨p, List.mem_cons_of_mem _ (List.mem_filter.mpr ⟨hj ▸ hp, ?_⟩), hpe⟩
          simp only [decide_eq_true_eq]
          rw [hpe]
          exact hi
        · rw [if_neg hj]
          exact ⟨p, hp, hpe⟩
  · intro j p hp
    obtain ⟨hc, hd, hf, hk⟩ := hinv
    dsimp only at hp
    by_cases hj : j = k
    · rw [if_pos hj] at hp
      rcases List.mem_cons.mp hp with h | h
      · rw [h]
        exact hid
      · exact hd k p (List.mem_filter.mp h).1
    · rw [if_neg hj] at hp
      exact hd j p hp

/-- removeComponent preserves the store invariant. -/
theorem removeComponent_inv (st : SimpleECS) (k id : ℕ) (hinv : EcsInv st) :
    EcsInv (removeComponent st k id) := by
  unfold removeComponent
  split
  · rename_i hhas
    have hid : id ∈ st.entities := by
      obtain ⟨hc, hd, hf, hk⟩ := hinv
      obtain ⟨p, hp, hpe⟩ := (hasComp_iff st k id).mp hhas
      exact hpe ▸ hd k p hp
    show EcsInv (updateCaches { st with compData := fun j =>
      if j = k then (st.compData k).filter (fun p => p.1 ≠ id) else st.compData j } id k)
    refine updateCaches_inv st _ id k rfl rfl rfl ?_ hid ?_ hinv
    · intro j id0 hcase
      rw [Bool.eq_iff_iff]
      simp only [hasComp, List.any_eq_true, decide_eq_true_eq]
      rcases hcase with hj | hi
      · rw [if_neg hj]
      · constructor
        · intro ⟨p, hp, hpe⟩
          by_cases hj : j = k
          · rw [if_pos hj] at hp
            rw [hj]
            exact ⟨p, (List.mem_filter.mp hp).1, hpe⟩
          · rw [if_neg hj] at hp
            exact ⟨p, hp, hpe⟩
        · intro ⟨p, hp, hpe⟩
          by_cases hj : j = k
          · rw [if_pos hj]
            refine ⟨p, List.mem_filter.mpr ⟨hj ▸ hp, ?_⟩, hpe⟩
            simp only [decide_eq_true_eq]
            rw [hpe]
            exact hi
          · rw [if_neg hj]
            exact ⟨p, hp, hpe⟩
    · intro j p hp
      obtain ⟨hc, hd, hf, hk⟩ := hinv
      dsimp only at hp
      by_cases hj : j = k
      · rw [if_pos hj] at hp
        exact hd k p (List.mem_filter.mp hp).1
      · rw [if_neg hj] at hp
        exact hd j p hp
  · exact hinv

/-- defineQuery with a nonempty component list preserves the store invariant. -/
theorem defineQuery_inv (st : SimpleECS) (ks : List ℕ) (hne : ks ≠ [])
    (hinv : EcsInv st) : EcsInv (defineQueryOp st ks) := by
  obtain ⟨hc, hd, hf, hk⟩ := hinv
  unfold defineQueryOp
  split
  · exact ⟨hc, hd, hf, hk⟩
  · refine ⟨?_, hd, hf, ?_⟩
    · intro q hq id0
      show id0 ∈ q.2 ↔ id0 ∈ st.entities ∧ (q.1.all fun j => hasComp st j id0) = true
      rcases List.mem_append.mp hq with h | h
      · exact hc q h id0
      · have hq2 : q = (sortKey ks, bruteForce st ks) := by
          simpa using h
        rw [hq2]
        show id0 ∈ bruteForce st ks ↔
            id0 ∈ st.entities ∧ ((sortKey ks).all fun j => hasComp st j id0) = true
        have hall : ((sortKey ks).all fun j => hasComp st j id0) =
            (ks.all fun j => hasComp st j id0) := by
          rw [Bool.eq_iff_iff]
          simp only [List.all_eq_true]
          exact ⟨fun h1 j hj => h1 j ((mem_sortKey ks j).mpr hj),
            fun h1 j hj => h1 j ((mem_sortKey ks j).mp hj)⟩
        rw [hall]
        simp [bruteForce, List.mem_filter]
    · intro q hq
      rcases List.mem_append.mp hq with h | h
      · exact hk q h
      · have hq2 : q = (sortKey ks, bruteForce st ks) := by
          simpa using h
        rw [hq2]
        show sortKey ks ≠ []
        intro hcon
        have hlen : (sortKey ks).length = ks.length :=
          List.Perm.length_eq (List.perm_insertionSort (· ≤ ·) ks)
        rw [hcon] at hlen
        exact hne (List.eq_nil_of_length_eq_zero hlen.symm)

/-- Applying any wellformed operation preserves the store invariant. -/
theorem applyOp_inv (st : SimpleECS) (op : EcsOp) (hwf : wfOp st op = true)
    (hinv : EcsInv st) : EcsInv (applyOp st op) := by
  cases op with
  | create => exact addEntity_inv st hinv
  | destroy id => exact removeEntity_inv st id hinv
  | addComp k id v =>
      have hid : id ∈ st.entities := by
        simpa [wfOp] using hwf
      exact addComponent_inv st k id v hid hinv
  | removeComp k id => exact removeComponent_inv st k id hinv
  | defQuery ks =>
      have hne : ks ≠ [] := by
        simp only [wfOp, Bool.not_eq_eq_eq_not, Bool.not_true] at hwf
        intro hcon
        rw [hcon] at hwf
        simp at hwf
      exact defineQuery_inv st ks hne hinv

/-- Running a wellformed operation sequence preserves the store invariant. -/
theorem runOps_inv : ∀ (ops : List EcsOp) (st : SimpleECS), EcsInv st →
    wfOps st ops = true → EcsInv (runOps st ops) := by
  intro ops
  induction ops with
  | nil => intro st hinv _; exact hinv
  | cons op rest ih =>
      intro st hinv hwf
      have h1 : wfOp st op = true ∧ wfOps (applyOp st op) rest = true := by
        simpa [wfOps, Bool.and_eq_true] using hwf
      exact ih (applyOp st op) (applyOp_inv st op h1.1 hinv) h1.2

/-- The all-test over a sorted key agrees with the all-test over the original
component list. -/
theorem all_sortKey (ks : List ℕ) (f : ℕ → Bool) : (sortKey ks).all f = ks.all f := by
  rw [Bool.eq_iff_iff]
  simp only [List.all_eq_true]
  exact ⟨fun h j hj => h j ((mem_sortKey ks j).mpr hj),
    fun h j hj => h j ((mem_sortKey ks j).mp hj)⟩

/-- The fresh store satisfies the invariant. -/
theorem initECS_inv : EcsInv initECS :=
  ⟨fun q hq => absurd hq (List.not_mem_nil q),
   fun _ p hp => absurd hp (List.not_mem_nil p),
   fun i hi => absurd hi (List.not_mem_nil i),
   fun q hq => absurd hq (List.not_mem_nil q)⟩

/-- C1 counterexample: register the query over kind c0, create entity 1,
destroy it, then add component c0 to the (dead) id 1. The incremental cache
maintenance re-inserts 1 into the cached set, but the brute-force filter over
current entities is empty, so the cached set is stale. -/
theorem query_cache_claim_false :
    resolve (runOps initECS [.defQuery [0], .create, .destroy 1, .addComp 0 1 5]) [0] =
      some [1] ∧
    bruteForce (runOps initECS [.defQuery [0], .create, .destroy 1, .addComp 0 1 5]) [0] = [] ∧
    1 ∉ (runOps initECS [.defQuery [0], .create, .destroy 1, .addComp 0 1 5]).entities := by
  refine ⟨?_, ?_, ?_⟩ <;> decide

/-- C1 amended: for every sequence of entity-creation, entity-destruction,
component-add and component-remove operations in which components are only
added to currently live entities, and for every registered query naming at
least one component kind, the cached set resolved for the query contains
exactly the entities of the brute-force filter over current entities. -/
theorem query_cache_consistent (ops : List EcsOp) (hwf : wfOps initECS ops = true)
    (ks : List ℕ) (cache : List ℕ)
    (hres : resolve (runOps initECS ops) ks = some cache) (id : ℕ) :
    id ∈ cache ↔ id ∈ bruteForce (runOps initECS ops) ks := by
  obtain ⟨hc, hd, hf, hk⟩ := runOps_inv ops initECS initECS_inv hwf
  have hmem := lookupKey_mem _ _ _ hres
  rw [hc (sortKey ks, cache) hmem id]
  show _ ↔ id ∈ (runOps initECS ops).entities.filter
    (fun i => ks.all (fun k => hasComp (runOps initECS ops) k i))
  rw [List.mem_filter]
  show (id ∈ (runOps initECS ops).entities ∧
      ((sortKey ks).all fun k => hasComp (runOps initECS ops) k id) = true) ↔ _
  rw [all_sortKey]

theorem query_cache_consistent_witness :
    wfOps initECS [.create, .defQuery [0], .addComp 0 1 7] = true ∧
    resolve (runOps initECS [.create, .defQuery [0], .addComp 0 1 7]) [0] = some [1] ∧
    (1 ∈ [1] ↔ 1 ∈ bruteForce (runOps initECS [.create, .defQuery [0], .addComp 0 1 7]) [0]) :=
  ⟨by decide, by decide,
    query_cache_consistent [.create, .defQuery [0], .addComp 0 1 7] (by decide) [0] [1]
      (by decide) 1⟩

/-- Walks survive opening more cells. -/
theorem walk_mono {op op' : ℤ × ℤ → Bool} (h : ∀ c, op c = true → op' c = true) :
    ∀ {a b : ℤ × ℤ} {n : ℕ}, Walk op a b n → Walk op' a b n := by
  intro a b n hw
  induction hw with
  | nil c hc => exact .nil c (h c hc)
  | cons a b c n ha hadj _ ih => exact .cons a b c n (h a ha) hadj ih

/-- Walks concatenate. -/
theorem walk_append {op : ℤ × ℤ → Bool} :
    ∀ {a b c : ℤ × ℤ} {n m : ℕ}, Walk op a b n → Walk op b c m → Walk op a c (n + m) := by
  intro a b c n m h1 h2
  induction h1 with
  | nil d hd => simpa using h2
  | cons d e f k hd hadj _ ih =>
      have : k + 1 + m = (k + m) + 1 := by omega
      rw [this]
      exact .cons d e c (k + m) hd hadj (ih h2)

/-- The end cell of a walk is open. -/
theorem walk_end_open {op : ℤ × ℤ → Bool} :
    ∀ {a b : ℤ × ℤ} {n : ℕ}, Walk op a b n → op b = true := by
  intro a b n hw
  induction hw with
  | nil c hc => exact hc
  | cons _ _ _ _ _ _ _ ih => exact ih

/-- getD at an index below the length picks a member. -/
theorem getD_mem {α : Type} (l : List α) (i : ℕ) (d : α) (h : i < l.length) :
    l.getD i d ∈ l := by
  have : l.getD i d = l[i] := by
    simp [List.getD_eq_getElem?_getD, List.getElem?_eq_getElem h]
  rw [this]
  exact List.getElem_mem h

/-- A cell opened by setOpen is open. -/
theorem setOpen_self (m : ℤ × ℤ → Bool) (c0 : ℤ × ℤ) : setOpen m c0 c0 = false := by
  simp [setOpen]

/-- setOpen leaves other cells unchanged. -/
theorem setOpen_other (m : ℤ × ℤ → Bool) (c0 c : ℤ × ℤ) (h : c ≠ c0) :
    setOpen m c0 c = m c := by
  simp [setOpen, h]

/-- setOpen only opens cells. -/
theorem setOpen_mono (m : ℤ × ℤ → Bool) (c0 c : ℤ × ℤ) (h : m c = false) :
    setOpen m c0 c = false := by
  by_cases hc : c = c0
  · rw [hc]; exact setOpen_self m c0
  · rw [setOpen_other m c0 c hc]; exact h

/-- Opening a cell outside a region leaves the region's open count intact. -/
theorem filter_setOpen_not_mem (s : Finset (ℤ × ℤ)) (m : ℤ × ℤ → Bool) (c0 : ℤ × ℤ)
    (h : c0 ∉ s) :
    s.filter (fun c => setOpen m c0 c = false) = s.filter (fun c => m c = false) := by
  apply Finset.filter_congr
  intro c hc
  have hne : c ≠ c0 := fun he => h (he ▸ hc)
  rw [setOpen_other m c0 c hne]

/-- Opening a wall cell inside a region increments the region's open count. -/
theorem filter_setOpen_mem_card (s : Finset (ℤ × ℤ)) (m : ℤ × ℤ → Bool) (c0 : ℤ × ℤ)
    (hmem : c0 ∈ s) (hwall : m c0 = true) :
    (s.filter (fun c => setOpen m c0 c = false)).card =
      (s.filter (fun c => m c = false)).card + 1 := by
  have heq : s.filter (fun c => setOpen m c0 c = false) =
      insert c0 (s.filter (fun c => m c = false)) := by
    ext c
    simp only [Finset.mem_insert, Finset.mem_filter]
    constructor
    · intro ⟨hcs, hco⟩
      by_cases hc : c = c0
      · exact Or.inl hc
      · rw [setOpen_other m c0 c hc] at hco
        exact Or.inr ⟨hcs, hco⟩
    · intro hc
      rcases hc with hc | ⟨hcs, hco⟩
      · exact ⟨hc ▸ hmem, hc ▸ setOpen_self m c0⟩
      · exact ⟨hcs, setOpen_mono m c0 c hco⟩
  rw [heq, Finset.card_insert_of_not_mem]
  simp [Finset.mem_filter, hwall]

/-- Unfolding membership in the candidate list of the carving loop. -/
theorem mem_carveCandidates {w h : ℕ} {m : ℤ × ℤ → Bool} {cell d : ℤ × ℤ}
    (hd : d ∈ carveCandidates w h m cell) :
    d ∈ dirList ∧ inBoundsCarve w h (cell.1 + d.1, cell.2 + d.2) = true ∧
      m (cell.1 + d.1, cell.2 + d.2) = true := by
  have h1 := List.mem_filter.mp hd
  refine ⟨h1.1, ?_, ?_⟩
  · exact (Bool.and_eq_true_iff.mp h1.2).1
  · exact (Bool.and_eq_true_iff.mp h1.2).2

/-- Room membership, arithmetically. -/
theorem mem_roomRegion_iff (w h : ℕ) (x y : ℤ) :
    (x, y) ∈ roomRegion w h ↔
      (1 ≤ x ∧ x ≤ (w : ℤ) - 2 ∧ 1 ≤ y ∧ y ≤ (h : ℤ) - 2 ∧
        x % 2 = 1 ∧ y % 2 = 1) := by
  simp only [roomRegion, Finset.mem_filter, Finset.mem_product, Finset.mem_Icc]
  tauto

/-- Connector membership, arithmetically. -/
theorem mem_connRegion_iff (w h : ℕ) (x y : ℤ) :
    (x, y) ∈ connRegion w h ↔
      (1 ≤ x ∧ x ≤ (w : ℤ) - 2 ∧ 1 ≤ y ∧ y ≤ (h : ℤ) - 2 ∧
        ((x % 2 = 1 ∧ y % 2 = 0) ∨ (x % 2 = 0 ∧ y % 2 = 1))) := by
  simp only [connRegion, Finset.mem_filter, Finset.mem_product, Finset.mem_Icc]
  tauto

/-- Bounds test, arithmetically. -/
theorem inBoundsCarve_iff (w h : ℕ) (x y : ℤ) :
    inBoundsCarve w h (x, y) = true ↔
      (0 < x ∧ x < (w : ℤ) - 1 ∧ 0 < y ∧ y < (h : ℤ) - 1) := by
  simp [inBoundsCarve]

/-- Adjacency between explicit cells. -/
theorem adjCell_mk (a b c d : ℤ) :
    adjCell (a, b) (c, d) ↔ (a - c).natAbs + (b - d).natAbs = 1 := Iff.rfl

/-- connEnds on an explicit cell. -/
theorem connEnds_mk (x y : ℤ) :
    connEnds (x, y) =
      if x % 2 = 0 then ((x - 1, y), (x + 1, y)) else ((x, y - 1), (x, y + 1)) := rfl

/-- The geometry of one carving step: from a room cell, a candidate direction
reaches another room cell through a connector wall, that connector's two
rooms are exactly the source and the target, the three cells form a length-2
walk, and room and connector cells are distinct kinds. -/
theorem carve_geometry (w h : ℕ) (cx cy dx dy : ℤ)
    (hcell : (cx, cy) ∈ roomRegion w h) (hd : (dx, dy) ∈ dirList)
    (hb : inBoundsCarve w h (cx + dx, cy + dy) = true) :
    (cx + dx, cy + dy) ∈ roomRegion w h ∧
    (cx + dx / 2, cy + dy / 2) ∈ connRegion w h ∧
    (connEnds (cx + dx / 2, cy + dy / 2) = ((cx, cy), (cx + dx, cy + dy)) ∨
      connEnds (cx + dx / 2, cy + dy / 2) = ((cx + dx, cy + dy), (cx, cy))) ∧
    adjCell (cx, cy) (cx + dx / 2, cy + dy / 2) ∧
    adjCell (cx + dx / 2, cy + dy / 2) (cx + dx, cy + dy) ∧
    (cx + dx / 2, cy + dy / 2) ≠ (cx + dx, cy + dy) ∧
    (cx + dx / 2, cy + dy / 2) ∉ roomRegion w h ∧
    (cx + dx, cy + dy) ∉ connRegion w h := by
  rw [mem_roomRegion_iff] at hcell
  simp only [dirList, List.mem_cons, List.not_mem_nil, or_false, Prod.mk.injEq] at hd
  have d1 : ((-2 : ℤ)) / 2 = -1 := by decide
  have d2 : ((2 : ℤ)) / 2 = 1 := by decide
  have d3 : ((0 : ℤ)) / 2 = 0 := by decide
  rcases hd with ⟨rfl, rfl⟩ | ⟨rfl, rfl⟩ | ⟨rfl, rfl⟩ | ⟨rfl, rfl⟩ <;>
    · rw [inBoundsCarve_iff] at hb
      simp only [d1, d2, d3, add_zero] at hb ⊢
      refine ⟨?_, ?_, ?_, ?_, ?_, ?_, ?_, ?_⟩
      · rw [mem_roomRegion_iff]
        omega
      · rw [mem_connRegion_iff]
        omega
      · rw [connEnds_mk]
        split <;>
          first
            | (left
               simp only [Prod.mk.injEq, and_true, true_and]
               omega)
            | (right
               simp only [Prod.mk.injEq, and_true, true_and]
               omega)
      · rw [adjCell_mk]
        omega
      · rw [adjCell_mk]
        omega
      · simp only [ne_eq, Prod.mk.injEq, and_true, true_and]
        omega
      · rw [mem_roomRegion_iff]
        omega
      · rw [mem_connRegion_iff]
        omega

/-- Openness of a wall map, unfolded. -/
theorem mOpen_true_iff (m : ℤ × ℤ → Bool) (c : ℤ × ℤ) :
    mOpen m c = true ↔ m c = false := by
  simp [mOpen]

/-- Popping an exhausted cell preserves the carving invariant. -/
theorem carveInv_pop {w h : ℕ} {m : ℤ × ℤ → Bool} {cell : ℤ × ℤ} {rest : List (ℤ × ℤ)}
    (hinv : CarveInv w h m (cell :: rest))
    (hns : carveCandidates w h m cell = []) :
    CarveInv w h m rest := by
  obtain ⟨h1, h2, h3, h4, h5, h6, h7⟩ := hinv
  refine ⟨h1, h2, h3, h4, h5, ?_, ?_⟩
  · intro c hc
    exact h6 c (List.mem_cons_of_mem cell hc)
  · intro r hr hopen
    rcases h7 r hr hopen with hstk | hdone
    · rcases List.mem_cons.mp hstk with heq | hstk2
      · right
        intro d hd hb
        subst heq
        have hnp := List.filter_eq_nil_iff.mp hns d hd
        cases hm : m (r.1 + d.1, r.2 + d.2)
        · rfl
        · exfalso
          apply hnp
          rw [Bool.and_eq_true]
          exact ⟨hb, hm⟩
      · exact Or.inl hstk2
    · exact Or.inr hdone

/-- The open-map characterization of the double setOpen of a carving step. -/
theorem carve_open_iff (m : ℤ × ℤ → Bool) (nb mid c : ℤ × ℤ) :
    (setOpen (setOpen m nb) mid) c = false ↔ (c = mid ∨ c = nb ∨ m c = false) := by
  constructor
  · intro hc
    by_cases hcm : c = mid
    · exact Or.inl hcm
    · rw [setOpen_other _ mid c hcm] at hc
      by_cases hcn : c = nb
      · exact Or.inr (Or.inl hcn)
      · rw [setOpen_other m nb c hcn] at hc
        exact Or.inr (Or.inr hc)
  · intro hc
    rcases hc with rfl | rfl | hc
    · exact setOpen_self _ c
    · exact setOpen_mono _ mid c (setOpen_self m c)
    · exact setOpen_mono _ mid c (setOpen_mono m nb c hc)

/-- Carving a candidate neighbour preserves the carving invariant. -/
theorem carveInv_carve {w h : ℕ} {m : ℤ × ℤ → Bool} {cx cy : ℤ} {rest : List (ℤ × ℤ)}
    (hinv : CarveInv w h m ((cx, cy) :: rest)) {dx dy : ℤ}
    (hd : (dx, dy) ∈ carveCandidates w h m (cx, cy)) :
    CarveInv w h
      (setOpen (setOpen m (cx + dx, cy + dy)) (cx + dx / 2, cy + dy / 2))
      ((cx + dx, cy + dy) :: (cx, cy) :: rest) := by
  obtain ⟨h1, h2, h3, h4, h5, h6, h7⟩ := hinv
  obtain ⟨hdl, hbound, hwall⟩ := mem_carveCandidates hd
  have hcell := h6 (cx, cy) (List.mem_cons_self _ rest)
  obtain ⟨gnbRoom, gmidConn, gEnds, gadj1, gadj2, gmidne, gmidNotRoom, gnbNotConn⟩ :=
    carve_geometry w h cx cy dx dy hcell.1 hdl hbound
  have hmidwall : m (cx + dx / 2, cy + dy / 2) = true := by
    cases hm : m (cx + dx / 2, cy + dy / 2)
    · exfalso
      have hconn := h3 _ gmidConn hm
      rcases gEnds with hE | hE <;> rw [hE] at hconn
      · rw [hconn.2] at hwall
        exact Bool.false_ne_true hwall
      · rw [hconn.1] at hwall
        exact Bool.false_ne_true hwall
    · rfl
  have hmono : ∀ c, mOpen m c = true →
      mOpen (setOpen (setOpen m (cx + dx, cy + dy)) (cx + dx / 2, cy + dy / 2)) c = true := by
    intro c hc
    rw [mOpen_true_iff] at hc ⊢
    exact (carve_open_iff _ _ _ c).mpr (Or.inr (Or.inr hc))
  refine ⟨?_, ?_, ?_, ?_, ?_, ?_, ?_⟩
  · exact (carve_open_iff _ _ _ _).mpr (Or.inr (Or.inr h1))
  · intro c hc
    rcases (carve_open_iff _ _ _ c).mp hc with rfl | rfl | hc2
    · exact Or.inr gmidConn
    · exact Or.inl gnbRoom
    · exact h2 c hc2
  · intro c hcmem hc
    rcases (carve_open_iff _ _ _ c).mp hc with rfl | rfl | hc2
    · rcases gEnds with hE | hE <;> rw [hE]
      · exact ⟨(carve_open_iff _ _ _ _).mpr (Or.inr (Or.inr hcell.2)),
          (carve_open_iff _ _ _ _).mpr (Or.inr (Or.inl rfl))⟩
      · exact ⟨(carve_open_iff _ _ _ _).mpr (Or.inr (Or.inl rfl)),
          (carve_open_iff _ _ _ _).mpr (Or.inr (Or.inr hcell.2))⟩
    · exact absurd hcmem gnbNotConn
    · have hends := h3 c hcmem hc2
      exact ⟨(carve_open_iff _ _ _ _).mpr (Or.inr (Or.inr hends.1)),
        (carve_open_iff _ _ _ _).mpr (Or.inr (Or.inr hends.2))⟩
  · have hconn1 : (connRegion w h).filter
        (fun c => setOpen m (cx + dx, cy + dy) c = false) =
        (connRegion w h).filter (fun c => m c = false) :=
      filter_setOpen_not_mem _ m _ gnbNotConn
    have hconn2 : ((connRegion w h).filter (fun c =>
        (setOpen (setOpen m (cx + dx, cy + dy)) (cx + dx / 2, cy + dy / 2)) c = false)).card =
        ((connRegion w h).filter
          (fun c => setOpen m (cx + dx, cy + dy) c = false)).card + 1 := by
      apply filter_setOpen_mem_card _ _ _ gmidConn
      rw [setOpen_other m _ _ gmidne]
      exact hmidwall
    have hroom1 : (roomRegion w h).filter (fun c =>
        (setOpen (setOpen m (cx + dx, cy + dy)) (cx + dx / 2, cy + dy / 2)) c = false) =
        (roomRegion w h).filter (fun c => setOpen m (cx + dx, cy + dy) c = false) :=
      filter_setOpen_not_mem _ _ _ gmidNotRoom
    have hroom2 : ((roomRegion w h).filter
        (fun c => setOpen m (cx + dx, cy + dy) c = false)).card =
        ((roomRegion w h).filter (fun c => m c = false)).card + 1 :=
      filter_setOpen_mem_card _ m _ gnbRoom hwall
    rw [hconn2, hconn1, hroom1, hroom2]
    omega
  · intro c hc
    rcases (carve_open_iff _ _ _ c).mp hc with rfl | rfl | hc2
    · obtain ⟨n, hwalk⟩ := h5 (cx, cy) hcell.2
      refine ⟨n + 1, walk_append (walk_mono hmono hwalk) ?_⟩
      exact .cons _ _ _ 0 ((mOpen_true_iff _ _).mpr ((carve_open_iff _ _ _ _).mpr
          (Or.inr (Or.inr hcell.2)))) gadj1
        (.nil _ ((mOpen_true_iff _ _).mpr ((carve_open_iff _ _ _ _).mpr (Or.inl rfl))))
    · obtain ⟨n, hwalk⟩ := h5 (cx, cy) hcell.2
      refine ⟨n + 2, walk_append (walk_mono hmono hwalk) ?_⟩
      have hstep2 : Walk (mOpen (setOpen (setOpen m (cx + dx, cy + dy))
          (cx + dx / 2, cy + dy / 2))) (cx + dx / 2, cy + dy / 2) (cx + dx, cy + dy) 1 :=
        .cons _ _ _ 0 ((mOpen_true_iff _ _).mpr ((carve_open_iff _ _ _ _).mpr (Or.inl rfl)))
          gadj2
          (.nil _ ((mOpen_true_iff _ _).mpr ((carve_open_iff _ _ _ _).mpr
            (Or.inr (Or.inl rfl)))))
      exact .cons _ _ _ 1 ((mOpen_true_iff _ _).mpr ((carve_open_iff _ _ _ _).mpr
          (Or.inr (Or.inr hcell.2)))) gadj1 hstep2
    · obtain ⟨n, hwalk⟩ := h5 c hc2
      exact ⟨n, walk_mono hmono hwalk⟩
  · intro c hc
    rcases List.mem_cons.mp hc with rfl | hc2
    · exact ⟨gnbRoom, (carve_open_iff _ _ _ _).mpr (Or.inr (Or.inl rfl))⟩
    · rcases List.mem_cons.mp hc2 with rfl | hc3
      · exact ⟨hcell.1, (carve_open_iff _ _ _ _).mpr (Or.inr (Or.inr hcell.2))⟩
      · obtain ⟨hr1, hr2⟩ := h6 c (List.mem_cons_of_mem _ hc3)
        exact ⟨hr1, (carve_open_iff _ _ _ _).mpr (Or.inr (Or.inr hr2))⟩
  · intro r hr hopen
    rcases (carve_open_iff _ _ _ r).mp hopen with rfl | rfl | hc2
    · exact absurd hr gmidNotRoom
    · exact Or.inl (List.mem_cons_self _ _)
    · rcases h7 r hr hc2 with hstk | hdone
      · exact Or.inl (List.mem_cons_of_mem _ hstk)
      · right
        intro d hdd hbb
        exact (carve_open_iff _ _ _ _).mpr (Or.inr (Or.inr (hdone d hdd hbb)))

/-- A carving step turns exactly one wall room into an open room. -/
theorem carve_wallRooms {w h : ℕ} {m : ℤ × ℤ → Bool} {cx cy dx dy : ℤ}
    (hnbRoom : (cx + dx, cy + dy) ∈ roomRegion w h)
    (hmidNotRoom : (cx + dx / 2, cy + dy / 2) ∉ roomRegion w h)
    (hwall : m (cx + dx, cy + dy) = true) :
    ((roomRegion w h).filter (fun c =>
        (setOpen (setOpen m (cx + dx, cy + dy)) (cx + dx / 2, cy + dy / 2)) c = true)).card + 1 =
      ((roomRegion w h).filter (fun c => m c = true)).card := by
  have heq : (roomRegion w h).filter (fun c =>
      (setOpen (setOpen m (cx + dx, cy + dy)) (cx + dx / 2, cy + dy / 2)) c = true) =
      ((roomRegion w h).filter (fun c => m c = true)).erase (cx + dx, cy + dy) := by
    ext c
    simp only [Finset.mem_erase, Finset.mem_filter]
    constructor
    · intro ⟨hcr, hct⟩
      have hnot : ¬(c = (cx + dx / 2, cy + dy / 2) ∨ c = (cx + dx, cy + dy) ∨ m c = false) := by
        intro hcon
        rw [(carve_open_iff m _ _ c).mpr hcon] at hct
        exact Bool.false_ne_true hct
      push_neg at hnot
      refine ⟨hnot.2.1, hcr, ?_⟩
      cases hmc : m c
      · exact absurd hmc hnot.2.2
      · rfl
    · intro ⟨hne, hcr, hct⟩
      refine ⟨hcr, ?_⟩
      have hnm : c ≠ (cx + dx / 2, cy + dy / 2) := by
        intro he
        rw [he] at hcr
        exact hmidNotRoom hcr
      rw [setOpen_other _ _ c hnm, setOpen_other _ _ c hne]
      exact hct
  rw [heq, Finset.card_erase_of_mem]
  · have hmem : (cx + dx, cy + dy) ∈ (roomRegion w h).filter (fun c => m c = true) :=
      Finset.mem_filter.mpr ⟨hnbRoom, hwall⟩
    have := Finset.card_pos.mpr ⟨_, hmem⟩
    omega
  · exact Finset.mem_filter.mpr ⟨hnbRoom, hwall⟩

/-- One-step unfolding of the carving loop on a nonempty stack. -/
theorem carveLoop_cons (w h : ℕ) (rng : ℕ → ℕ) (n : ℕ) (m : ℤ × ℤ → Bool)
    (cell : ℤ × ℤ) (rest : List (ℤ × ℤ)) :
    carveLoop w h rng (n + 1) m (cell :: rest) =
      (let ns := carveCandidates w h m cell
       if ns.isEmpty then carveLoop w h rng n m rest
       else
         let d := ns.getD (rng 0 % ns.length) (0, 0)
         carveLoop w h (fun i => rng (i + 1)) n
           (setOpen (setOpen m (cell.1 + d.1, cell.2 + d.2))
             (cell.1 + d.1 / 2, cell.2 + d.2 / 2))
           ((cell.1 + d.1, cell.2 + d.2) :: cell :: rest)) := rfl

/-- Running the carving loop with fuel dominating twice the number of wall
rooms plus the stack length drains the stack and preserves the invariant. -/
theorem carveLoop_inv (w h : ℕ) :
    ∀ (fuel : ℕ) (rng : ℕ → ℕ) (m : ℤ × ℤ → Bool) (stack : List (ℤ × ℤ)),
      CarveInv w h m stack →
      2 * ((roomRegion w h).filter (fun c => m c = true)).card + stack.length < fuel →
      CarveInv w h (carveLoop w h rng fuel m stack) [] := by
  intro fuel
  induction fuel with
  | zero => intro rng m stack hinv hbound; omega
  | succ n ih =>
      intro rng m stack hinv hbound
      cases stack with
      | nil => exact hinv
      | cons cell rest =>
          rw [carveLoop_cons]
          by_cases he : (carveCandidates w h m cell).isEmpty
          · simp only [he, if_true]
            apply ih rng m rest (carveInv_pop hinv ?_) ?_
            · exact List.isEmpty_iff.mp he
            · simp only [List.length_cons] at hbound
              omega
          · simp only [he, if_false]
            have hne : carveCandidates w h m cell ≠ [] := by
              intro hcon
              rw [hcon] at he
              exact he rfl
            have hlen : rng 0 % (carveCandidates w h m cell).length <
                (carveCandidates w h m cell).length :=
              Nat.mod_lt _ (List.length_pos.mpr hne)
            have hdmem := getD_mem _ _ (0, 0) hlen
            have hdmem2 : ((carveCandidates w h m cell).getD
                (rng 0 % (carveCandidates w h m cell).length) (0, 0) |>.1,
                (carveCandidates w h m cell).getD
                  (rng 0 % (carveCandidates w h m cell).length) (0, 0) |>.2) ∈
                carveCandidates w h m (cell.1, cell.2) := by
              rw [Prod.mk.eta, Prod.mk.eta]
              exact hdmem
            have hinv2 : CarveInv w h m ((cell.1, cell.2) :: rest) := by
              rw [Prod.mk.eta]
              exact hinv
            have hstep := carveInv_carve hinv2 hdmem2
            rw [Prod.mk.eta] at hstep
            apply ih (fun i => rng (i + 1)) _ _ hstep
            obtain ⟨hdl, hbound2, hwall⟩ := mem_carveCandidates hdmem2
            have hcellmem := (hinv.2.2.2.2.2.1) cell (List.mem_cons_self _ rest)
            have hcellmem2 : (cell.1, cell.2) ∈ roomRegion w h := by
              rw [Prod.mk.eta]
              exact hcellmem.1
            obtain ⟨gnbRoom, _, _, _, _, _, gmidNotRoom, _⟩ :=
              carve_geometry w h cell.1 cell.2 _ _ hcellmem2 hdl hbound2
            have hcount := carve_wallRooms gnbRoom gmidNotRoom hwall
            simp only [List.length_cons] at hbound ⊢
            omega

/-- In the initial maze only the start cell is open. -/
theorem init_open_iff (c : ℤ × ℤ) :
    (setOpen (fun _ => true) (1, 1)) c = false ↔ c = ((1 : ℤ), (1 : ℤ)) := by
  constructor
  · intro hc
    by_cases he : c = ((1 : ℤ), (1 : ℤ))
    · exact he
    · rw [setOpen_other _ _ c he] at hc
      exact absurd hc (by simp)
  · intro he
    rw [he]
    exact setOpen_self _ _


/-- The carving invariant holds at the start of the loop. -/
theorem carve_init_inv (w h : ℕ) (h5w : 5 ≤ w) (h5h : 5 ≤ h) :
    CarveInv w h (setOpen (fun _ => true) (1, 1)) [(1, 1)] := by
  have hstartmem : ((1 : ℤ), (1 : ℤ)) ∈ roomRegion w h := by
    rw [mem_roomRegion_iff]
    have : (5 : ℤ) ≤ (w : ℤ) := by exact_mod_cast h5w
    have : (5 : ℤ) ≤ (h : ℤ) := by exact_mod_cast h5h
    omega
  have hstartnotconn : ((1 : ℤ), (1 : ℤ)) ∉ connRegion w h := by
    rw [mem_connRegion_iff]
    omega
  refine ⟨setOpen_self _ _, ?_, ?_, ?_, ?_, ?_, ?_⟩
  · intro c hc
    rw [init_open_iff] at hc
    rw [hc]
    exact Or.inl hstartmem
  · intro c hcmem hc
    rw [init_open_iff] at hc
    rw [hc] at hcmem
    exact absurd hcmem hstartnotconn
  · have hconn : (connRegion w h).filter
        (fun c => (setOpen (fun _ => true) (1, 1)) c = false) = ∅ := by
      rw [Finset.filter_eq_empty_iff]
      intro c hcmem hc
      rw [init_open_iff] at hc
      rw [hc] at hcmem
      exact hstartnotconn hcmem
    have hroom : (roomRegion w h).filter
        (fun c => (setOpen (fun _ => true) (1, 1)) c = false) = {((1 : ℤ), (1 : ℤ))} := by
      ext c
      simp only [Finset.mem_filter, Finset.mem_singleton, init_open_iff]
      constructor
      · intro hc; exact hc.2
      · intro hc; exact ⟨hc ▸ hstartmem, hc⟩
    rw [hconn, hroom]
    simp
  · intro c hc
    rw [init_open_iff] at hc
    rw [hc]
    exact ⟨0, .nil _ ((mOpen_true_iff _ _).mpr (setOpen_self _ _))⟩
  · intro c hc
    rw [List.mem_singleton] at hc
    rw [hc]
    exact ⟨hstartmem, setOpen_self _ _⟩
  · intro r _ hopen
    rw [init_open_iff] at hopen
    rw [hopen]
    exact Or.inl (List.mem_singleton.mpr rfl)

/-- Room cells lie inside the carving bounds. -/
theorem roomRegion_inBounds (w h : ℕ) (x y : ℤ) (hr : (x, y) ∈ roomRegion w h) :
    inBoundsCarve w h (x, y) = true := by
  rw [mem_roomRegion_iff] at hr
  rw [inBoundsCarve_iff]
  omega

/-- Once the stack is drained, every room reachable in the room grid from the
start room is open. -/
theorem roomReach_open (w h : ℕ) (m : ℤ × ℤ → Bool) (hinv : CarveInv w h m [])
    (h5w : 5 ≤ w) (h5h : 5 ≤ h) :
    ∀ r : ℤ × ℤ, RoomReach w h r → r ∈ roomRegion w h ∧ m r = false := by
  intro r hr
  induction hr with
  | start =>
      constructor
      · rw [mem_roomRegion_iff]
        have : (5 : ℤ) ≤ (w : ℤ) := by exact_mod_cast h5w
        have : (5 : ℤ) ≤ (h : ℤ) := by exact_mod_cast h5h
        omega
      · exact hinv.1
  | step r d _ hd hmem ih =>
      refine ⟨hmem, ?_⟩
      obtain ⟨hrmem, hropen⟩ := ih
      rcases hinv.2.2.2.2.2.2 r hrmem hropen with hstk | hdone
      · exact absurd hstk (List.not_mem_nil r)
      · apply hdone d hd
        have : (r.1 + d.1, r.2 + d.2) ∈ roomRegion w h := hmem
        exact roomRegion_inBounds w h _ _ this

/-- Every room is reachable in the room grid from the start room. -/
theorem room_path (w h : ℕ) :
    ∀ (N : ℕ) (x y : ℤ), (x, y) ∈ roomRegion w h →
      ((x - 1) + (y - 1)).toNat ≤ N → RoomReach w h (x, y) := by
  intro N
  induction N with
  | zero =>
      intro x y hmem hle
      rw [mem_roomRegion_iff] at hmem
      have hx : x = 1 := by omega
      have hy : y = 1 := by omega
      rw [hx, hy]
      exact .start
  | succ n ih =>
      intro x y hmem hle
      have hmem2 := hmem
      rw [mem_roomRegion_iff] at hmem2
      by_cases hx1 : x = 1
      · by_cases hy1 : y = 1
        · rw [hx1, hy1]
          exact .start
        · have hy3 : 3 ≤ y := by omega
          have hprev : (x, y - 2) ∈ roomRegion w h := by
            rw [mem_roomRegion_iff]
            omega
          have hreach := ih x (y - 2) hprev (by omega)
          have hcast : ((x, y - 2).1 + ((0 : ℤ), (2 : ℤ)).1,
              (x, y - 2).2 + ((0 : ℤ), (2 : ℤ)).2) = (x, y) := by
            simp only [Prod.mk.injEq]
            constructor <;> omega
          have hstep := RoomReach.step (x, y - 2) (0, 2) hreach
            (by simp [dirList]) (by rw [hcast]; exact hmem)
          rwa [hcast] at hstep
      · have hx3 : 3 ≤ x := by omega
        have hprev : (x - 2, y) ∈ roomRegion w h := by
          rw [mem_roomRegion_iff]
          omega
        have hreach := ih (x - 2) y hprev (by omega)
        have hcast : ((x - 2, y).1 + ((2 : ℤ), (0 : ℤ)).1,
            (x - 2, y).2 + ((2 : ℤ), (0 : ℤ)).2) = (x, y) := by
          simp only [Prod.mk.injEq]
          constructor <;> omega
        have hstep := RoomReach.step (x - 2, y) (2, 0) hreach
          (by simp [dirList]) (by rw [hcast]; exact hmem)
        rwa [hcast] at hstep

/-- The number of room cells is at most the number of grid cells. -/
theorem roomRegion_card_le (w h : ℕ) : (roomRegion w h).card ≤ w * h := by
  have h1 : (roomRegion w h).card ≤
      ((Finset.Icc 1 ((w : ℤ) - 2)) ×ˢ (Finset.Icc 1 ((h : ℤ) - 2))).card :=
    Finset.card_filter_le _ _
  rw [Finset.card_product, Int.card_Icc, Int.card_Icc] at h1
  have h2 : ((w : ℤ) - 2 + 1 - 1).toNat ≤ w := by omega
  have h3 : ((h : ℤ) - 2 + 1 - 1).toNat ≤ h := by omega
  exact h1.trans (Nat.mul_le_mul h2 h3)

/-- C4: for every random stream and odd dimensions at least 5, the carved
maze (before the extra random openings) opens every room cell and connects it
to the start room by a walk through open cells, carves exactly
room-cell-count minus one connector walls, and opens nothing but room cells
and connector walls: the open cells form a spanning tree over the rooms. -/
theorem maze_spanning_tree (w h : ℕ) (rng : ℕ → ℕ) (hw : Odd w) (hh : Odd h)
    (h5w : 5 ≤ w) (h5h : 5 ≤ h) :
    (∀ c ∈ roomRegion w h, carveMaze w h rng c = false ∧
      ∃ n, Walk (mOpen (carveMaze w h rng)) (1, 1) c n) ∧
    ((connRegion w h).filter (fun c => carveMaze w h rng c = false)).card + 1 =
      (roomRegion w h).card ∧
    (∀ c : ℤ × ℤ, carveMaze w h rng c = false →
      c ∈ roomRegion w h ∨ c ∈ connRegion w h) := by
  have hbound : 2 * ((roomRegion w h).filter
      (fun c => (setOpen (fun _ => true) (1, 1)) c = true)).card +
      ([((1 : ℤ), (1 : ℤ))] : List (ℤ × ℤ)).length < 2 * w * h + 2 := by
    have h1 := Finset.card_filter_le (roomRegion w h)
      (fun c => (setOpen (fun _ => true) (1, 1)) c = true)
    have h2 := roomRegion_card_le w h
    have h4 : 2 * w * h = 2 * (w * h) := by ring
    simp only [List.length_cons, List.length_nil]
    omega
  have hend := carveLoop_inv w h (2 * w * h + 2) rng _ _ (carve_init_inv w h h5w h5h) hbound
  rw [show carveLoop w h rng (2 * w * h + 2) (setOpen (fun _ => true) (1, 1)) [(1, 1)] =
    carveMaze w h rng from rfl] at hend
  have hallrooms : ∀ c ∈ roomRegion w h, carveMaze w h rng c = false := by
    intro c hc
    obtain ⟨cx, cyy⟩ := c
    exact (roomReach_open w h _ hend h5w h5h _
      (room_path w h _ cx cyy hc (le_refl _))).2
  refine ⟨?_, ?_, hend.2.1⟩
  · intro c hc
    exact ⟨hallrooms c hc, hend.2.2.2.2.1 c (hallrooms c hc)⟩
  · have hfil : (roomRegion w h).filter (fun c => carveMaze w h rng c = false) =
        roomRegion w h :=
      Finset.filter_true_of_mem hallrooms
    have hcount := hend.2.2.2.1
    rw [hfil] at hcount
    exact hcount

theorem maze_spanning_tree_witness :
    (Odd 5 ∧ 5 ≤ 5) ∧
    ((∀ c ∈ roomRegion 5 5, carveMaze 5 5 (fun _ => 0) c = false ∧
        ∃ n, Walk (mOpen (carveMaze 5 5 (fun _ => 0))) (1, 1) c n) ∧
      ((connRegion 5 5).filter (fun c => carveMaze 5 5 (fun _ => 0) c = false)).card + 1 =
        (roomRegion 5 5).card ∧
      (∀ c : ℤ × ℤ, carveMaze 5 5 (fun _ => 0) c = false →
        c ∈ roomRegion 5 5 ∨ c ∈ connRegion 5 5)) :=
  ⟨⟨by decide, by decide⟩,
    maze_spanning_tree 5 5 (fun _ => 0) (by decide) (by decide) (by decide) (by decide)⟩

/-- C5 counterexample: requesting the even, undersized dimensions 4 x 4 does
not fail: generation runs to completion with no validation and returns a grid
whose only open cell is the start cell (1, 1) - a degenerate grid rather than
an InvalidConfiguration error. -/
theorem maze_gen_no_validation :
    generateMaze 4 4 (fun _ => 0) (fun _ => 0) (1, 1) = false ∧
    (∀ x ∈ Finset.Icc (0 : ℤ) 3, ∀ y ∈ Finset.Icc (0 : ℤ) 3,
      ¬(x = 1 ∧ y = 1) → generateMaze 4 4 (fun _ => 0) (fun _ => 0) (x, y) = true) := by
  constructor
  · decide
  · decide

/-- Lookup after a fresh binding for the same key. -/
theorem plookup_cons_self {β : Type} (m : List ((ℤ × ℤ) × β)) (k : ℤ × ℤ) (v : β) :
    plookup ((k, v) :: m) k = some v := by
  simp [plookup]

/-- Lookup after a fresh binding for a different key. -/
theorem plookup_cons_ne {β : Type} (m : List ((ℤ × ℤ) × β)) (k q : ℤ × ℤ) (v : β)
    (h : k ≠ q) : plookup ((k, v) :: m) q = plookup m q := by
  simp [plookup, h]

/-- A walk of length zero stays put. -/
theorem walk_zero {op : ℤ × ℤ → Bool} {a b : ℤ × ℤ} (h : Walk op a b 0) : a = b := by
  cases h
  rfl

/-- The start cell of a walk is open. -/
theorem walk_start_open {op : ℤ × ℤ → Bool} {a b : ℤ × ℤ} {n : ℕ}
    (h : Walk op a b n) : op a = true := by
  cases h with
  | nil _ hc => exact hc
  | cons _ _ _ _ ha _ _ => exact ha

/-- A nonempty walk decomposes at its last step. -/
theorem walk_snoc {op : ℤ × ℤ → Bool} :
    ∀ {n : ℕ} {a c : ℤ × ℤ}, Walk op a c (n + 1) →
      ∃ b, Walk op a b n ∧ adjCell b c ∧ op c = true := by
  intro n
  induction n with
  | zero =>
      intro a c h
      cases h with
      | cons _ b _ _ ha hadj htail =>
          have hbc := walk_zero htail
          subst hbc
          exact ⟨a, .nil a ha, hadj, walk_start_open htail⟩
  | succ k ih =>
      intro a c h
      cases h with
      | cons _ b _ _ ha hadj htail =>
          obtain ⟨b2, hw, hadj2, hc⟩ := ih htail
          exact ⟨b2, .cons a b b2 k ha hadj hw, hadj2, hc⟩

/-- One step of heuristic consistency: the Manhattan heuristic changes by at
most one across an adjacency. -/
theorem heuristic_adj {a b e : ℤ × ℤ} (h : adjCell a b) :
    heuristic a e ≤ 1 + heuristic b e := by
  unfold adjCell at h
  unfold heuristic
  omega

/-- Membership in the JS neighbour list is four-adjacency. -/
theorem mem_neighbors_iff (c nb : ℤ × ℤ) : nb ∈ neighborsOf c ↔ adjCell c nb := by
  simp only [neighborsOf, List.mem_cons, List.not_mem_nil, or_false, Prod.ext_iff]
  unfold adjCell
  constructor
  · intro h
    rcases h with ⟨h1, h2⟩ | ⟨h1, h2⟩ | ⟨h1, h2⟩ | ⟨h1, h2⟩ <;> omega
  · intro h
    omega

/-- Cover: every walk from the start to a cell outside the closed set is
dominated through some open cell whose f score is at most the walk length
plus the target heuristic. -/
theorem astar_cover {grid : List (List Bool)} {start endC : ℤ × ℤ} {st : AState}
    (hinv : AInv grid start endC st) :
    ∀ (m : ℕ) (z : ℤ × ℤ), Walk (walkable grid) start z m → z ∉ st.closed →
      ∃ y ∈ st.openL, ∃ gy, plookup st.g y = some gy ∧
        gy + heuristic y endC ≤ m + heuristic z endC := by
  intro m
  induction m with
  | zero =>
      intro z hw hz
      have hsz := walk_zero hw
      subst hsz
      rcases hinv.startIn with hs | hs
      · exact ⟨start, hs, 0, hinv.gStart, le_refl _⟩
      · exact absurd hs hz
  | succ k ih =>
      intro z hw hz
      obtain ⟨b, hwb, hadj, hopz⟩ := walk_snoc hw
      by_cases hbc : b ∈ st.closed
      · obtain ⟨gb, hgb⟩ := hinv.closedDom b hbc
        obtain ⟨hzopen, gz, hgz, hle⟩ :=
          hinv.frontier b hbc gb hgb z ((mem_neighbors_iff b z).mpr hadj) hopz hz
        have hopt := hinv.closedOpt b hbc gb hgb k hwb
        exact ⟨z, hzopen, gz, hgz, by omega⟩
      · obtain ⟨y, hy, gy, hgy, hle⟩ := ih b hwb hbc
        have h2 : heuristic b endC ≤ 1 + heuristic z endC := heuristic_adj hadj
        exact ⟨y, hy, gy, hgy, by omega⟩

/-- Settling: the g score of a minimum-f open cell undercuts every walk from
the start to it. -/
theorem astar_settle {grid : List (List Bool)} {start endC : ℤ × ℤ} {st : AState}
    (hinv : AInv grid start endC st) {current : ℤ × ℤ} {gcur : ℕ}
    (hcur_open : current ∈ st.openL)
    (hgcur : plookup st.g current = some gcur)
    (hmin : ∀ y ∈ st.openL, (plookup st.f current).getD 0 ≤ (plookup st.f y).getD 0) :
    ∀ m, Walk (walkable grid) start current m → gcur ≤ m := by
  intro m hw
  have hznc := hinv.disj current hcur_open
  obtain ⟨y, hy, gy, hgy, hle⟩ := astar_cover hinv m current hw hznc
  have hfy := hinv.fOfg y gy hgy
  have hfc := hinv.fOfg current gcur hgcur
  have h1 := hmin y hy
  rw [hfy, hfc] at h1
  simp only [Option.getD_some] at h1
  omega

/-- The reconstruction loop follows cameFrom links back to the start,
producing a walk no longer than the g score of its argument, with fuel at
least that score. -/
theorem recon_spec {grid : List (List Bool)} {start endC : ℤ × ℤ} {st : AState}
    (hinv : AInv grid start endC st) :
    ∀ gc : ℕ, ∀ c, plookup st.g c = some gc → ∀ fuel, gc ≤ fuel →
      (reconstructPath st.cameFrom fuel c).head? = some start ∧
      (reconstructPath st.cameFrom fuel c).getLast? = some c ∧
      Walk (walkable grid) start c ((reconstructPath st.cameFrom fuel c).length - 1) ∧
      (reconstructPath st.cameFrom fuel c).length - 1 ≤ gc := by
  intro gc
  induction gc using Nat.strong_induction_on with
  | _ gc ih =>
      intro c hgc fuel hfuel
      by_cases hcs : c = start
      · subst hcs
        have hop : walkable grid c = true := walk_start_open (hinv.gSound c gc hgc)
        have hout : reconstructPath st.cameFrom fuel c = [c] := by
          cases fuel with
          | zero => rfl
          | succ fl => simp [reconstructPath, hinv.cfStart]
        rw [hout]
        exact ⟨rfl, rfl, .nil c hop, by simp⟩
      · obtain ⟨p, hp⟩ := hinv.gCF c gc hgc hcs
        obtain ⟨gc2, gp, hgc2, hgp, hlt, hadj, hopc⟩ := hinv.cfG c p hp
        have hge : gc2 = gc := by
          rw [hgc] at hgc2
          exact (Option.some.inj hgc2).symm
        subst hge
        cases fuel with
        | zero => omega
        | succ fl =>
            have hstep : reconstructPath st.cameFrom (fl + 1) c =
                reconstructPath st.cameFrom fl p ++ [c] := by
              simp [reconstructPath, hp]
            obtain ⟨hh, hl, hwalk, hlen⟩ := ih gp hlt p hgp fl (by omega)
            rw [hstep]
            cases hpp : reconstructPath st.cameFrom fl p with
            | nil =>
                rw [hpp] at hh
                exact absurd hh (by simp)
            | cons a tl =>
                rw [hpp] at hh hwalk hlen
                have ha : a = start := by simpa using hh
                rw [ha]
                have hwalk2 : Walk (walkable grid) start p tl.length := by
                  simpa using hwalk
                have hlast : Walk (walkable grid) p c 1 :=
                  .cons p c c 0 (walk_end_open hwalk2) hadj (.nil c hopc)
                refine ⟨by simp, List.getLast?_concat _, ?_, ?_⟩
                · have hlen2 : ((start :: tl) ++ [c]).length - 1 = tl.length + 1 := by
                    simp
                  rw [hlen2]
                  exact walk_append hwalk2 hlast
                · simp only [List.length_append, List.length_cons, List.length_nil]
                  simp only [List.length_cons] at hlen
                  omega

/-- Adjacent cells differ. -/
theorem adj_ne {a b : ℤ × ℤ} (h : adjCell a b) : b ≠ a := by
  intro he
  subst he
  unfold adjCell at h
  omega

/-- relaxOne with its lets and match expanded. -/
theorem relaxOne_eq (grid : List (List Bool)) (endC current : ℤ × ℤ) (st : AState)
    (nb : ℤ × ℤ) :
    relaxOne grid endC current st nb =
      if walkable grid nb = false then st
      else if nb ∈ st.closed then st
      else if (match plookup st.g nb with
               | none => true
               | some gn => decide ((plookup st.g current).getD 0 + 1 < gn)) = true then
        { openL := if nb ∈ st.openL then st.openL else st.openL ++ [nb],
          closed := st.closed,
          cameFrom := (nb, current) :: st.cameFrom,
          g := (nb, (plookup st.g current).getD 0 + 1) :: st.g,
          f := (nb, (plookup st.g current).getD 0 + 1 + heuristic nb endC) :: st.f }
      else st := rfl

/-- A relaxation step that leaves the state unchanged preserves the fold
invariant, provided the processed neighbour already satisfies the frontier
property whenever it is walkable and unclosed. -/
theorem foldInv_unchanged {grid : List (List Bool)} {start endC current : ℤ × ℤ}
    {closed0 : List (ℤ × ℤ)} {gcur : ℕ} {stk : AState} {nb : ℤ × ℤ}
    {l' : List (ℤ × ℤ)}
    (hfi : FoldInv grid start endC current closed0 gcur stk (nb :: l'))
    (hdis : walkable grid nb = true → nb ∉ stk.closed →
      nb ∈ stk.openL ∧ ∃ gn, plookup stk.g nb = some gn ∧ gn ≤ gcur + 1) :
    FoldInv grid start endC current closed0 gcur stk l' := by
  refine ⟨hfi.toAInvCore, hfi.closedEq, hfi.gCur, ?_⟩
  intro c hc gc hgc nb0 hnb0 hwa0 hnc0
  rcases hfi.frontierW c hc gc hgc nb0 hnb0 hwa0 hnc0 with ⟨hceq, hpend⟩ | hright
  · rcases List.mem_cons.mp hpend with rfl | hl2
    · right
      have hgc2 : gc = gcur := by
        rw [hceq] at hgc
        rw [hfi.gCur] at hgc
        exact (Option.some.inj hgc).symm
      obtain ⟨ho, gn, hgn, hle⟩ := hdis hwa0 hnc0
      exact ⟨ho, gn, hgn, by omega⟩
    · exact Or.inl ⟨hceq, hl2⟩
  · exact Or.inr hright

/-- The updating branch of a relaxation step preserves the fold invariant:
when the neighbour is walkable, unclosed, and its score (if any) exceeds the
tentative score, the recorded links, scores and open membership restore every
field. -/
theorem relax_update_foldInv {grid : List (List Bool)} {start endC current : ℤ × ℤ}
    {closed0 : List (ℤ × ℤ)} {gcur : ℕ} {stk : AState} {nb : ℤ × ℤ}
    {l' : List (ℤ × ℤ)}
    (hnb : nb ∈ neighborsOf current)
    (hfi : FoldInv grid start endC current closed0 gcur stk (nb :: l'))
    (hwa : walkable grid nb = true)
    (hnc : nb ∉ stk.closed)
    (hbetter : ∀ gn, plookup stk.g nb = some gn → gcur + 1 < gn) :
    FoldInv grid start endC current closed0 gcur
      { openL := if nb ∈ stk.openL then stk.openL else stk.openL ++ [nb],
        closed := stk.closed,
        cameFrom := (nb, current) :: stk.cameFrom,
        g := (nb, (plookup stk.g current).getD 0 + 1) :: stk.g,
        f := (nb, (plookup stk.g current).getD 0 + 1 + heuristic nb endC) :: stk.f }
      l' := by
  have hadj : adjCell current nb := (mem_neighbors_iff current nb).mp hnb
  have hnbne : nb ≠ current := adj_ne hadj
  have htgv : (plookup stk.g current).getD 0 + 1 = gcur + 1 := by
    rw [hfi.gCur]
    rfl
  have hnbstart : nb ≠ start := by
    intro he
    have h0 := hfi.gStart
    rw [← he] at h0
    have := hbetter 0 h0
    omega
  have hopcur : walkable grid current = true :=
    walk_end_open (hfi.gSound current gcur hfi.gCur)
  have hwalknb : Walk (walkable grid) start nb (gcur + 1) :=
    walk_append (hfi.gSound current gcur hfi.gCur)
      (.cons current nb nb 0 hopcur hadj (.nil nb hwa))
  have hopen2 : ∀ c : ℤ × ℤ,
      (c ∈ (if nb ∈ stk.openL then stk.openL else stk.openL ++ [nb])) ↔
        (c ∈ stk.openL ∨ c = nb) := by
    intro c
    by_cases hm : nb ∈ stk.openL
    · rw [if_pos hm]
      constructor
      · exact Or.inl
      · intro hc
        rcases hc with hc | rfl
        · exact hc
        · exact hm
    · rw [if_neg hm]
      simp [List.mem_append]
  have hgnew : ∀ c : ℤ × ℤ, c ≠ nb →
      plookup ((nb, (plookup stk.g current).getD 0 + 1) :: stk.g) c = plookup stk.g c :=
    fun c hc => plookup_cons_ne _ _ _ _ (fun he => hc he.symm)
  have hfnew : ∀ c : ℤ × ℤ, c ≠ nb →
      plookup ((nb, (plookup stk.g current).getD 0 + 1 + heuristic nb endC) :: stk.f) c =
        plookup stk.f c :=
    fun c hc => plookup_cons_ne _ _ _ _ (fun he => hc he.symm)
  have hcfnew : ∀ c : ℤ × ℤ, c ≠ nb →
      plookup ((nb, current) :: stk.cameFrom) c = plookup stk.cameFrom c :=
    fun c hc => plookup_cons_ne _ _ _ _ (fun he => hc he.symm)
  refine ⟨⟨?_, ?_, ?_, ?_, ?_, ?_, ?_, ?_, ?_, ?_, ?_, ?_, ?_, ?_, ?_, ?_⟩, ?_, ?_, ?_⟩
  · rw [hgnew start (fun he => hnbstart he.symm)]
    exact hfi.gStart
  · intro c gc hgc
    by_cases hc : c = nb
    · subst hc
      rw [plookup_cons_self] at hgc
      have : gc = (plookup stk.g current).getD 0 + 1 := (Option.some.inj hgc).symm
      rw [this, htgv]
      exact hwalknb
    · rw [hgnew c hc] at hgc
      exact hfi.gSound c gc hgc
  · intro c gc hgc
    by_cases hc : c = nb
    · subst hc
      rw [plookup_cons_self] at hgc
      have : gc = (plookup stk.g current).getD 0 + 1 := (Option.some.inj hgc).symm
      rw [this]
      exact plookup_cons_self _ _ _
    · rw [hgnew c hc] at hgc
      rw [hfnew c hc]
      exact hfi.fOfg c gc hgc
  · intro c hc
    by_cases hce : c = nb
    · subst hce
      exact ⟨_, plookup_cons_self _ _ _⟩
    · rw [hgnew c hce]
      rcases (hopen2 c).mp hc with hc2 | hc2
      · exact hfi.openDom c hc2
      · exact absurd hc2 hce
  · intro c hc
    have hce : c ≠ nb := fun he => hnc (he ▸ hc)
    rw [hgnew c hce]
    exact hfi.closedDom c hc
  · intro c hc gc hgc
    have hce : c ≠ nb := fun he => hnc (he ▸ hc)
    rw [hgnew c hce] at hgc
    exact hfi.closedOpt c hc gc hgc
  · intro c hc
    rcases (hopen2 c).mp hc with hc2 | rfl
    · exact hfi.disj c hc2
    · exact hnc
  · rcases hfi.startIn with hs | hs
    · exact Or.inl ((hopen2 start).mpr (Or.inl hs))
    · exact Or.inr hs
  · exact hfi.endNC
  · exact hfi.closedND
  · show (if nb ∈ stk.openL then stk.openL else stk.openL ++ [nb]).Nodup
    by_cases hm : nb ∈ stk.openL
    · rw [if_pos hm]
      exact hfi.openND
    · rw [if_neg hm]
      rw [List.nodup_append]
      refine ⟨hfi.openND, by simp, ?_⟩
      intro a ha hb
      rw [List.mem_singleton] at hb
      subst hb
      exact hm ha
  · intro c p hp
    by_cases hc : c = nb
    · subst hc
      rw [plookup_cons_self] at hp
      have hpc : p = current := (Option.some.inj hp).symm
      rw [hpc]
      refine ⟨(plookup stk.g current).getD 0 + 1, gcur, plookup_cons_self _ _ _, ?_, ?_, hadj, hwa⟩
      · rw [hgnew current hnbne.symm]
        exact hfi.gCur
      · omega
    · rw [hcfnew c hc] at hp
      obtain ⟨gc, gp, hgc, hgp, hlt2, hadj2, hopc⟩ := hfi.cfG c p hp
      by_cases hpe : p = nb
      · subst hpe
        have hb2 := hbetter gp hgp
        refine ⟨gc, (plookup stk.g current).getD 0 + 1,
          by rw [hgnew c hc]; exact hgc, plookup_cons_self _ _ _, by omega, hadj2, hopc⟩
      · exact ⟨gc, gp, by rw [hgnew c hc]; exact hgc, by rw [hgnew p hpe]; exact hgp,
          hlt2, hadj2, hopc⟩
  · rw [hcfnew start (fun he => hnbstart he.symm)]
    exact hfi.cfStart
  · intro c gc hgc hcs
    by_cases hc : c = nb
    · subst hc
      exact ⟨current, plookup_cons_self _ _ _⟩
    · rw [hgnew c hc] at hgc
      obtain ⟨p, hp⟩ := hfi.gCF c gc hgc hcs
      exact ⟨p, by rw [hcfnew c hc]; exact hp⟩
  · intro c gc hgc
    show gc ≤ ((nb, current) :: stk.cameFrom).length
    rw [List.length_cons]
    by_cases hc : c = nb
    · subst hc
      rw [plookup_cons_self] at hgc
      have : gc = (plookup stk.g current).getD 0 + 1 := (Option.some.inj hgc).symm
      have hb := hfi.gBound current gcur hfi.gCur
      omega
    · rw [hgnew c hc] at hgc
      have := hfi.gBound c gc hgc
      omega
  · intro c gc hgc
    by_cases hc : c = nb
    · subst hc
      exact Or.inl ((hopen2 c).mpr (Or.inr rfl))
    · rw [hgnew c hc] at hgc
      rcases hfi.gDom c gc hgc with ho | hcl
      · exact Or.inl ((hopen2 c).mpr (Or.inl ho))
      · exact Or.inr hcl
  · exact hfi.closedEq
  · rw [hgnew current hnbne.symm]
    exact hfi.gCur
  · intro c hc gc hgc nb0 hnb0 hwa0 hnc0
    have hce : c ≠ nb := fun he => hnc (he ▸ hc)
    rw [hgnew c hce] at hgc
    rcases hfi.frontierW c hc gc hgc nb0 hnb0 hwa0 hnc0 with ⟨hceq, hpend⟩ | hright
    · rcases List.mem_cons.mp hpend with rfl | hl2
      · right
        have hgc2 : gc = gcur := by
          rw [hceq] at hgc
          rw [hfi.gCur] at hgc
          exact (Option.some.inj hgc).symm
        refine ⟨(hopen2 nb0).mpr (Or.inr rfl), (plookup stk.g current).getD 0 + 1,
          plookup_cons_self _ _ _, by omega⟩
      · exact Or.inl ⟨hceq, hl2⟩
    · obtain ⟨ho, gn0, hgn0, hle0⟩ := hright
      by_cases hne0 : nb0 = nb
      · subst hne0
        have hb2 := hbetter gn0 hgn0
        right
        refine ⟨(hopen2 nb0).mpr (Or.inr rfl), (plookup stk.g current).getD 0 + 1,
          plookup_cons_self _ _ _, by omega⟩
      · right
        exact ⟨(hopen2 nb0).mpr (Or.inl ho), gn0, by rw [hgnew nb0 hne0]; exact hgn0, hle0⟩

/-- One relaxation step preserves the fold invariant, discharging its own
neighbour from the pending list. -/
theorem relaxOne_foldInv {grid : List (List Bool)} {start endC current : ℤ × ℤ}
    {closed0 : List (ℤ × ℤ)} {gcur : ℕ} {stk : AState} {nb : ℤ × ℤ}
    {l' : List (ℤ × ℤ)}
    (hnb : nb ∈ neighborsOf current)
    (hfi : FoldInv grid start endC current closed0 gcur stk (nb :: l')) :
    FoldInv grid start endC current closed0 gcur
      (relaxOne grid endC current stk nb) l' := by
  have hadj : adjCell current nb := (mem_neighbors_iff current nb).mp hnb
  have hnbne : nb ≠ current := adj_ne hadj
  have hcurmem : current ∈ stk.closed := by
    rw [hfi.closedEq]
    exact List.mem_cons_self _ _
  rw [relaxOne_eq]
  by_cases hwa : walkable grid nb = false
  · rw [if_pos hwa]
    apply foldInv_unchanged hfi
    intro hw _
    rw [hwa] at hw
    exact absurd hw (by simp)
  · rw [if_neg hwa]
    have hwa' : walkable grid nb = true := by
      cases hx : walkable grid nb
      · exact absurd hx hwa
      · rfl
    by_cases hnc : nb ∈ stk.closed
    · rw [if_pos hnc]
      apply foldInv_unchanged hfi
      intro _ hn
      exact absurd hnc hn
    · rw [if_neg hnc]
      have htg : (plookup stk.g current).getD 0 + 1 = gcur + 1 := by
        rw [hfi.gCur]
        rfl
      cases hgnb : plookup stk.g nb with
      | some gn =>
          by_cases hlt : (plookup stk.g current).getD 0 + 1 < gn
          · rw [if_pos (by simp [hgnb, hlt])]
            refine relax_update_foldInv hnb hfi hwa' hnc ?_
            intro gn0 h0
            rw [hgnb] at h0
            have hgn0 : gn = gn0 := Option.some.inj h0
            omega
          · rw [if_neg (by simp [hgnb, hlt])]
            apply foldInv_unchanged hfi
            intro _ _
            refine ⟨?_, gn, hgnb, by omega⟩
            rcases hfi.gDom nb gn hgnb with ho | hcl
            · exact ho
            · exact absurd hcl hnc
      | none =>
          rw [if_pos (by simp [hgnb])]
          refine relax_update_foldInv hnb hfi hwa' hnc ?_
          intro gn0 h0
          rw [hgnb] at h0
          exact Option.noConfusion h0

/-- Folding the relaxation step over a pending list of neighbours of the
current cell discharges the whole pending list. -/
theorem foldl_relax_foldInv {grid : List (List Bool)} {start endC current : ℤ × ℤ}
    {closed0 : List (ℤ × ℤ)} {gcur : ℕ} :
    ∀ (l : List (ℤ × ℤ)) (stk : AState), (∀ nb ∈ l, nb ∈ neighborsOf current) →
      FoldInv grid start endC current closed0 gcur stk l →
      FoldInv grid start endC current closed0 gcur
        (l.foldl (relaxOne grid endC current) stk) [] := by
  intro l
  induction l with
  | nil =>
      intro stk _ hfi
      exact hfi
  | cons nb l2 ih =>
      intro stk hmem hfi
      rw [List.foldl_cons]
      exact ih _ (fun x hx => hmem x (List.mem_cons_of_mem _ hx))
        (relaxOne_foldInv (hmem nb (List.mem_cons_self _ _)) hfi)

/-- The head of the f-comparator insertion sort of the open list has minimal
f score among open cells. -/
theorem sort_head_min (st : AState) (current : ℤ × ℤ) (rest : List (ℤ × ℤ))
    (hsort : List.insertionSort
      (fun a b => (plookup st.f a).getD 0 ≤ (plookup st.f b).getD 0) st.openL =
        current :: rest) :
    ∀ y ∈ st.openL, (plookup st.f current).getD 0 ≤ (plookup st.f y).getD 0 := by
  haveI h1 : IsTotal (ℤ × ℤ)
      (fun a b => (plookup st.f a).getD 0 ≤ (plookup st.f b).getD 0) :=
    ⟨fun a b => Nat.le_total _ _⟩
  haveI h2 : IsTrans (ℤ × ℤ)
      (fun a b => (plookup st.f a).getD 0 ≤ (plookup st.f b).getD 0) :=
    ⟨fun a b c hab hbc => Nat.le_trans hab hbc⟩
  have hsorted := List.sorted_insertionSort
    (fun a b => (plookup st.f a).getD 0 ≤ (plookup st.f b).getD 0) st.openL
  rw [hsort] at hsorted
  have hperm : (current :: rest).Perm st.openL := by
    rw [← hsort]
    exact List.perm_insertionSort _ _
  intro y hy
  rcases List.mem_cons.mp (hperm.mem_iff.mpr hy) with rfl | hyr
  · exact le_refl _
  · exact (List.sorted_cons.mp hsorted).1 y hyr

/-- Popping the minimum-f open cell into the closed list establishes the fold
invariant with all four of its neighbours pending. -/
theorem foldStart {grid : List (List Bool)} {start endC : ℤ × ℤ} {st : AState}
    (hinv : AInv grid start endC st) {current : ℤ × ℤ} {rest : List (ℤ × ℤ)}
    (hsort : List.insertionSort
      (fun a b => (plookup st.f a).getD 0 ≤ (plookup st.f b).getD 0) st.openL =
        current :: rest)
    (hend : current ≠ endC) {gcur : ℕ} (hgcur : plookup st.g current = some gcur) :
    FoldInv grid start endC current st.closed gcur
      { st with openL := rest, closed := current :: st.closed }
      (neighborsOf current) := by
  have hperm : (current :: rest).Perm st.openL := by
    rw [← hsort]
    exact List.perm_insertionSort _ _
  have hcur : current ∈ st.openL := hperm.mem_iff.mp (List.mem_cons_self _ _)
  have hrest : ∀ c ∈ rest, c ∈ st.openL :=
    fun c hc => hperm.mem_iff.mp (List.mem_cons_of_mem _ hc)
  have hnd : (current :: rest).Nodup := hperm.nodup_iff.mpr hinv.openND
  have hcnr : current ∉ rest := (List.nodup_cons.mp hnd).1
  have hmin := sort_head_min st current rest hsort
  have hopt := astar_settle hinv hcur hgcur hmin
  refine ⟨⟨hinv.gStart, hinv.gSound, hinv.fOfg, ?_, ?_, ?_, ?_, ?_, ?_, ?_, ?_,
    hinv.cfG, hinv.cfStart, hinv.gCF, hinv.gBound, ?_⟩, rfl, hgcur, ?_⟩
  · exact fun c hc => hinv.openDom c (hrest c hc)
  · intro c hc
    rcases List.mem_cons.mp hc with rfl | hc2
    · exact ⟨gcur, hgcur⟩
    · exact hinv.closedDom c hc2
  · intro c hc gc hgc
    rcases List.mem_cons.mp hc with rfl | hc2
    · have hge : gc = gcur := by
        rw [hgcur] at hgc
        exact (Option.some.inj hgc).symm
      intro m hw
      have := hopt m hw
      omega
    · exact hinv.closedOpt c hc2 gc hgc
  · intro c hc
    show c ∉ current :: st.closed
    intro hmem
    rcases List.mem_cons.mp hmem with rfl | hm2
    · exact hcnr hc
    · exact hinv.disj c (hrest c hc) hm2
  · rcases hinv.startIn with hs | hs
    · rcases List.mem_cons.mp (hperm.mem_iff.mpr hs) with rfl | hs2
      · exact Or.inr (List.mem_cons_self _ _)
      · exact Or.inl hs2
    · exact Or.inr (List.mem_cons_of_mem _ hs)
  · show endC ∉ current :: st.closed
    intro hmem
    rcases List.mem_cons.mp hmem with he | hm2
    · exact hend he.symm
    · exact hinv.endNC hm2
  · exact List.nodup_cons.mpr ⟨hinv.disj current hcur, hinv.closedND⟩
  · exact (List.nodup_cons.mp hnd).2
  · intro c gc hgc
    rcases hinv.gDom c gc hgc with ho | hc
    · rcases List.mem_cons.mp (hperm.mem_iff.mpr ho) with rfl | ho2
      · exact Or.inr (List.mem_cons_self _ _)
      · exact Or.inl ho2
    · exact Or.inr (List.mem_cons_of_mem _ hc)
  · intro c hc gc hgc nb hnb hwa hnc
    rcases List.mem_cons.mp hc with rfl | hc2
    · exact Or.inl ⟨rfl, hnb⟩
    · obtain ⟨hno, gn, hgn, hle⟩ := hinv.frontier c hc2 gc hgc nb hnb hwa
        (fun hx => hnc (List.mem_cons_of_mem _ hx))
      have hnn : nb ≠ current := by
        intro he
        exact hnc (he ▸ List.mem_cons_self current st.closed)
      rcases List.mem_cons.mp (hperm.mem_iff.mpr hno) with he | hno2
      · exact absurd he hnn
      · exact Or.inr ⟨hno2, gn, hgn, hle⟩

/-- An empty pending list turns the fold invariant back into the full loop
invariant. -/
theorem foldEnd {grid : List (List Bool)} {start endC current : ℤ × ℤ}
    {closed0 : List (ℤ × ℤ)} {gcur : ℕ} {st : AState}
    (hfi : FoldInv grid start endC current closed0 gcur st []) :
    AInv grid start endC st := by
  refine ⟨hfi.toAInvCore, ?_⟩
  intro c hc gc hgc nb hnb hwa hnc
  rcases hfi.frontierW c hc gc hgc nb hnb hwa hnc with ⟨_, hpend⟩ | hr
  · exact absurd hpend (List.not_mem_nil _)
  · exact hr

/-- A walkable cell encodes injectively below the cell count. -/
theorem walkable_encode_lt {grid : List (List Bool)} {c : ℤ × ℤ}
    (h : walkable grid c = true) :
    c.2.toNat * gridWidth grid + c.1.toNat < grid.length * gridWidth grid := by
  unfold walkable at h
  rw [Bool.and_eq_true, decide_eq_true_iff] at h
  obtain ⟨⟨h1, h2, h3, h4⟩, _⟩ := h
  have hy : c.2.toNat + 1 ≤ grid.length := by omega
  have hx : c.1.toNat < gridWidth grid := by omega
  have hm := Nat.mul_le_mul_right (gridWidth grid) hy
  have hexp : (c.2.toNat + 1) * gridWidth grid =
      c.2.toNat * gridWidth grid + gridWidth grid := by ring
  omega

/-- The row-major encoding is injective on walkable cells. -/
theorem walkable_encode_inj {grid : List (List Bool)} {c d : ℤ × ℤ}
    (hc : walkable grid c = true) (hd : walkable grid d = true)
    (he : c.2.toNat * gridWidth grid + c.1.toNat =
      d.2.toNat * gridWidth grid + d.1.toNat) :
    c = d := by
  unfold walkable at hc hd
  rw [Bool.and_eq_true, decide_eq_true_iff] at hc hd
  obtain ⟨⟨hc1, hc2, hc3, hc4⟩, _⟩ := hc
  obtain ⟨⟨hd1, hd2, hd3, hd4⟩, _⟩ := hd
  have hcx : c.1.toNat < gridWidth grid := by omega
  have hdx : d.1.toNat < gridWidth grid := by omega
  have hye : c.2.toNat = d.2.toNat := by
    rcases Nat.lt_trichotomy c.2.toNat d.2.toNat with hlt | heq | hgt
    · have hm := Nat.mul_le_mul_right (gridWidth grid)
        (show c.2.toNat + 1 ≤ d.2.toNat from hlt)
      have hexp : (c.2.toNat + 1) * gridWidth grid =
          c.2.toNat * gridWidth grid + gridWidth grid := by ring
      omega
    · exact heq
    · have hm := Nat.mul_le_mul_right (gridWidth grid)
        (show d.2.toNat + 1 ≤ c.2.toNat from hgt)
      have hexp : (d.2.toNat + 1) * gridWidth grid =
          d.2.toNat * gridWidth grid + gridWidth grid := by ring
      omega
  have hxe : c.1.toNat = d.1.toNat := by
    rw [hye] at he
    omega
  have hfst : c.1 = d.1 := by omega
  have hsnd : c.2 = d.2 := by omega
  obtain ⟨cx, cy⟩ := c
  obtain ⟨dx, dy⟩ := d
  rw [Prod.mk.injEq]
  exact ⟨hfst, hsnd⟩

/-- A duplicate-free list of walkable cells is no longer than the cell
count of the grid. -/
theorem closed_length_le {grid : List (List Bool)} {l : List (ℤ × ℤ)}
    (hnd : l.Nodup) (hwa : ∀ c ∈ l, walkable grid c = true) :
    l.length ≤ grid.length * gridWidth grid := by
  have hinj : (l.map (fun c : ℤ × ℤ =>
      c.2.toNat * gridWidth grid + c.1.toNat)).Nodup := by
    refine List.Nodup.map_on ?_ hnd
    intro x hx y hy hxy
    exact walkable_encode_inj (hwa x hx) (hwa y hy) hxy
  have h1 := List.toFinset_card_of_nodup hinj
  have h2 : (l.map (fun c : ℤ × ℤ =>
      c.2.toNat * gridWidth grid + c.1.toNat)).toFinset ⊆
      Finset.range (grid.length * gridWidth grid) := by
    intro n hn
    rw [List.mem_toFinset, List.mem_map] at hn
    obtain ⟨c, hc, rfl⟩ := hn
    rw [Finset.mem_range]
    exact walkable_encode_lt (hwa c hc)
  have h3 := Finset.card_le_card h2
  rw [h1, List.length_map, Finset.card_range] at h3
  exact h3

/-- The successor step of the search loop, unfolded. -/
theorem astarLoop_succ (grid : List (List Bool)) (endC : ℤ × ℤ) (fuel : ℕ)
    (st : AState) :
    astarLoop grid endC (fuel + 1) st =
      match List.insertionSort
          (fun a b => (plookup st.f a).getD 0 ≤ (plookup st.f b).getD 0) st.openL with
      | [] => none
      | current :: rest =>
          if current = endC then
            some (reconstructPath st.cameFrom (st.cameFrom.length + 1) current)
          else
            astarLoop grid endC fuel
              ((neighborsOf current).foldl (relaxOne grid endC current)
                { st with openL := rest, closed := current :: st.closed }) := by
  rfl

/-- The search loop returns none when the sorted open list is empty. -/
theorem astarLoop_succ_nil (grid : List (List Bool)) (endC : ℤ × ℤ) (fuel : ℕ)
    (st : AState)
    (h : List.insertionSort
      (fun a b => (plookup st.f a).getD 0 ≤ (plookup st.f b).getD 0) st.openL = []) :
    astarLoop grid endC (fuel + 1) st = none := by
  rw [astarLoop_succ, h]

/-- The search loop pops the head of the sorted open list. -/
theorem astarLoop_succ_cons (grid : List (List Bool)) (endC : ℤ × ℤ) (fuel : ℕ)
    (st : AState) (current : ℤ × ℤ) (rest : List (ℤ × ℤ))
    (h : List.insertionSort
      (fun a b => (plookup st.f a).getD 0 ≤ (plookup st.f b).getD 0) st.openL =
        current :: rest) :
    astarLoop grid endC (fuel + 1) st =
      if current = endC then
        some (reconstructPath st.cameFrom (st.cameFrom.length + 1) current)
      else
        astarLoop grid endC fuel
          ((neighborsOf current).foldl (relaxOne grid endC current)
            { st with openL := rest, closed := current :: st.closed }) := by
  rw [astarLoop_succ, h]

/-- The search loop, run under the invariant with enough fuel, returns an
optimal start-to-goal path exactly when one exists. -/
theorem astarLoop_spec {grid : List (List Bool)} {start endC : ℤ × ℤ} :
    ∀ (fuel : ℕ) (st : AState), AInv grid start endC st →
      grid.length * gridWidth grid + 1 ≤ fuel + st.closed.length →
      (∀ p, astarLoop grid endC fuel st = some p →
        p.head? = some start ∧ p.getLast? = some endC ∧
        Walk (walkable grid) start endC (p.length - 1) ∧
        (∀ m, Walk (walkable grid) start endC m → p.length - 1 ≤ m)) ∧
      (astarLoop grid endC fuel st = none →
        ∀ m, ¬ Walk (walkable grid) start endC m) := by
  intro fuel
  induction fuel with
  | zero =>
      intro st hinv hbound
      exfalso
      have hwa : ∀ c ∈ st.closed, walkable grid c = true := by
        intro c hc
        obtain ⟨gc, hgc⟩ := hinv.closedDom c hc
        exact walk_end_open (hinv.gSound c gc hgc)
      have := closed_length_le hinv.closedND hwa
      omega
  | succ fl ih =>
      intro st hinv hbound
      cases hsort : List.insertionSort
          (fun a b => (plookup st.f a).getD 0 ≤ (plookup st.f b).getD 0) st.openL with
      | nil =>
          rw [astarLoop_succ_nil grid endC fl st hsort]
          constructor
          · intro p hp
            exact absurd hp (by simp)
          · intro _ m hw
            have hperm := List.perm_insertionSort
              (fun a b => (plookup st.f a).getD 0 ≤ (plookup st.f b).getD 0) st.openL
            rw [hsort] at hperm
            have hopen : st.openL = [] := hperm.symm.eq_nil
            obtain ⟨y, hy, _⟩ := astar_cover hinv m endC hw hinv.endNC
            rw [hopen] at hy
            exact List.not_mem_nil y hy
      | cons current rest =>
          rw [astarLoop_succ_cons grid endC fl st current rest hsort]
          have hperm : (current :: rest).Perm st.openL := by
            rw [← hsort]
            exact List.perm_insertionSort _ _
          have hcur : current ∈ st.openL := hperm.mem_iff.mp (List.mem_cons_self _ _)
          obtain ⟨gcur, hgcur⟩ := hinv.openDom current hcur
          by_cases hce : current = endC
          · rw [if_pos hce]
            have hmin := sort_head_min st current rest hsort
            have hopt := astar_settle hinv hcur hgcur hmin
            have hb := hinv.gBound current gcur hgcur
            obtain ⟨hh, hl, hwalk, hlen⟩ :=
              recon_spec hinv gcur current hgcur (st.cameFrom.length + 1) (by omega)
            constructor
            · intro p hp
              have hpe : p = reconstructPath st.cameFrom (st.cameFrom.length + 1)
                  current := (Option.some.inj hp).symm
              subst hpe
              refine ⟨hh, ?_, ?_, ?_⟩
              · rw [← hce]
                exact hl
              · rw [← hce]
                exact hwalk
              · intro m hw
                rw [← hce] at hw
                have := hopt m hw
                omega
            · intro hnone
              exact absurd hnone (by simp)
          · rw [if_neg hce]
            have hfold1 := foldStart hinv hsort hce hgcur
            have hfold2 := foldl_relax_foldInv (neighborsOf current) _
              (fun nb h => h) hfold1
            have hinv2 := foldEnd hfold2
            have hceq := hfold2.closedEq
            refine ih _ hinv2 ?_
            rw [hceq]
            simp only [List.length_cons]
            omega

/-- The initial search state of findPath satisfies the loop invariant when
the start cell is walkable. -/
theorem initAInv (grid : List (List Bool)) (start endC : ℤ × ℤ)
    (hs : walkable grid start = true) :
    AInv grid start endC
      { openL := [start], closed := [], cameFrom := [],
        g := [(start, 0)], f := [(start, heuristic start endC)] } := by
  have hg : ∀ c : ℤ × ℤ, plookup [(start, (0 : ℕ))] c =
      if start = c then some 0 else none := fun c => rfl
  have hf : ∀ c : ℤ × ℤ, plookup [(start, heuristic start endC)] c =
      if start = c then some (heuristic start endC) else none := fun c => rfl
  refine ⟨⟨?_, ?_, ?_, ?_, ?_, ?_, ?_, ?_, ?_, ?_, ?_, ?_, ?_, ?_, ?_, ?_⟩, ?_⟩
  · rw [hg, if_pos rfl]
  · intro c gc hgc
    rw [hg] at hgc
    by_cases h : start = c
    · rw [if_pos h] at hgc
      have h0 : gc = 0 := (Option.some.inj hgc).symm
      rw [← h, h0]
      exact .nil start hs
    · rw [if_neg h] at hgc
      exact Option.noConfusion hgc
  · intro c gc hgc
    rw [hg] at hgc
    by_cases h : start = c
    · rw [if_pos h] at hgc
      have h0 : gc = 0 := (Option.some.inj hgc).symm
      rw [hf, if_pos h, h0, ← h]
      rw [Nat.zero_add]
    · rw [if_neg h] at hgc
      exact Option.noConfusion hgc
  · intro c hc
    rw [List.mem_singleton] at hc
    subst hc
    exact ⟨0, by rw [hg, if_pos rfl]⟩
  · intro c hc
    exact absurd hc (List.not_mem_nil _)
  · intro c hc
    exact absurd hc (List.not_mem_nil _)
  · intro c _
    exact List.not_mem_nil _
  · exact Or.inl (List.mem_cons_self _ _)
  · exact List.not_mem_nil _
  · exact List.nodup_nil
  · exact List.nodup_cons.mpr ⟨List.not_mem_nil _, List.nodup_nil⟩
  · intro c p hp
    exact Option.noConfusion hp
  · rfl
  · intro c gc hgc hcs
    rw [hg] at hgc
    by_cases h : start = c
    · exact absurd h.symm hcs
    · rw [if_neg h] at hgc
      exact Option.noConfusion hgc
  · intro c gc hgc
    rw [hg] at hgc
    by_cases h : start = c
    · rw [if_pos h] at hgc
      have h0 : gc = 0 := (Option.some.inj hgc).symm
      simp [h0]
    · rw [if_neg h] at hgc
      exact Option.noConfusion hgc
  · intro c gc hgc
    rw [hg] at hgc
    by_cases h : start = c
    · exact Or.inl (by rw [← h]; exact List.mem_cons_self _ _)
    · rw [if_neg h] at hgc
      exact Option.noConfusion hgc
  · intro c hc
    exact absurd hc (List.not_mem_nil _)

/-- A relaxation step never pushes an unwalkable goal onto the open list. -/
theorem relaxOne_no_endC {grid : List (List Bool)} {endC current : ℤ × ℤ}
    {st : AState} {nb : ℤ × ℤ} (hg : walkable grid endC = false)
    (h : endC ∉ st.openL) : endC ∉ (relaxOne grid endC current st nb).openL := by
  rw [relaxOne_eq]
  by_cases hwa : walkable grid nb = false
  · rw [if_pos hwa]
    exact h
  · rw [if_neg hwa]
    by_cases hnc : nb ∈ st.closed
    · rw [if_pos hnc]
      exact h
    · rw [if_neg hnc]
      by_cases hupd : (match plookup st.g nb with
          | none => true
          | some gn => decide ((plookup st.g current).getD 0 + 1 < gn)) = true
      · rw [if_pos hupd]
        show endC ∉ (if nb ∈ st.openL then st.openL else st.openL ++ [nb])
        by_cases hm : nb ∈ st.openL
        · rw [if_pos hm]
          exact h
        · rw [if_neg hm]
          intro hmem
          rcases List.mem_append.mp hmem with h1 | h1
          · exact h h1
          · rw [List.mem_singleton] at h1
            rw [h1] at hg
            exact hwa hg
      · rw [if_neg hupd]
        exact h

/-- The neighbour fold never pushes an unwalkable goal onto the open list. -/
theorem foldl_relax_no_endC {grid : List (List Bool)} {endC current : ℤ × ℤ}
    (hg : walkable grid endC = false) :
    ∀ (l : List (ℤ × ℤ)) (st : AState), endC ∉ st.openL →
      endC ∉ (l.foldl (relaxOne grid endC current) st).openL := by
  intro l
  induction l with
  | nil =>
      intro st h
      exact h
  | cons nb l2 ih =>
      intro st h
      rw [List.foldl_cons]
      exact ih _ (relaxOne_no_endC hg h)

/-- The search loop never returns a path when the goal is unwalkable and
outside the open list. -/
theorem astarLoop_wall_none {grid : List (List Bool)} {endC : ℤ × ℤ}
    (hg : walkable grid endC = false) :
    ∀ (fuel : ℕ) (st : AState), endC ∉ st.openL →
      astarLoop grid endC fuel st = none := by
  intro fuel
  induction fuel with
  | zero =>
      intro st _
      rfl
  | succ fl ih =>
      intro st h
      cases hsort : List.insertionSort
          (fun a b => (plookup st.f a).getD 0 ≤ (plookup st.f b).getD 0) st.openL with
      | nil => exact astarLoop_succ_nil grid endC fl st hsort
      | cons current rest =>
          rw [astarLoop_succ_cons grid endC fl st current rest hsort]
          have hperm : (current :: rest).Perm st.openL := by
            rw [← hsort]
            exact List.perm_insertionSort _ _
          have hcur : current ∈ st.openL := hperm.mem_iff.mp (List.mem_cons_self _ _)
          have hne : ¬ current = endC := fun he => h (he ▸ hcur)
          rw [if_neg hne]
          apply ih
          apply foldl_relax_no_endC hg
          show endC ∉ rest
          intro hr
          exact h (hperm.mem_iff.mp (List.mem_cons_of_mem _ hr))

/-- C2: for every grid and walkable start cell, findPath behaves as an exact
breadth-first-search pathfinder: whenever some 4-connected walk through open
cells joins the start to the goal, it returns a cell sequence running from
the start to the goal inclusive whose length minus one is the minimum walk
length (the BFS distance, unit edge cost); when no such walk exists it
returns none (NotFound). -/
theorem findPath_bfs_optimal (grid : List (List Bool)) (start endC : ℤ × ℤ)
    (hs : walkable grid start = true) :
    (∀ n, Walk (walkable grid) start endC n →
      ∃ p, findPath grid start endC = some p ∧ p.head? = some start ∧
        p.getLast? = some endC ∧ Walk (walkable grid) start endC (p.length - 1) ∧
        (∀ m, Walk (walkable grid) start endC m → p.length - 1 ≤ m)) ∧
    ((∀ n, ¬ Walk (walkable grid) start endC n) →
      findPath grid start endC = none) := by
  have hspec := astarLoop_spec (grid.length * gridWidth grid + 1)
    { openL := [start], closed := [], cameFrom := [],
      g := [(start, 0)], f := [(start, heuristic start endC)] }
    (initAInv grid start endC hs) (by simp)
  constructor
  · intro n hw
    cases hres : findPath grid start endC with
    | some p =>
        have hres2 := hres
        simp only [findPath] at hres2
        exact ⟨p, rfl, hspec.1 p hres2⟩
    | none =>
        simp only [findPath] at hres
        exact absurd hw (hspec.2 hres n)
  · intro hnw
    cases hres : findPath grid start endC with
    | some p =>
        simp only [findPath] at hres
        obtain ⟨_, _, hwalk, _⟩ := hspec.1 p hres
        exact absurd hwalk (hnw _)
    | none => rfl

/-- Witness for the C2 theorem on a concrete two-cell corridor. -/
theorem findPath_bfs_optimal_witness :
    walkable [[false, false]] ((0 : ℤ), (0 : ℤ)) = true ∧
    ∃ p, findPath [[false, false]] (0, 0) (1, 0) = some p ∧
      p.head? = some (0, 0) ∧ p.getLast? = some (1, 0) ∧
      Walk (walkable [[false, false]]) (0, 0) (1, 0) (p.length - 1) ∧
      (∀ m, Walk (walkable [[false, false]]) (0, 0) (1, 0) m → p.length - 1 ≤ m) :=
  ⟨by decide,
    (findPath_bfs_optimal [[false, false]] (0, 0) (1, 0) (by decide)).1 1
      (.cons (0, 0) (1, 0) (1, 0) 0 (by decide) (by unfold adjCell; decide)
        (.nil (1, 0) (by decide)))⟩

/-- C6 counterexample: a wall start cell does not force NotFound — on the
grid [[wall, open]] with start on the wall and the goal on the open cell,
findPath still returns a path, because the start is pushed to the open list
without a walkability check. -/
theorem findPath_wall_claim_false :
    ∃ (grid : List (List Bool)) (start endC : ℤ × ℤ),
      isWallCell grid start = true ∧ walkable grid start = false ∧
      findPath grid start endC ≠ none :=
  ⟨[[true, false]], (0, 0), (1, 0), by decide, by decide, by decide⟩

/-- C6 (amended): when the goal cell is a wall or lies out of bounds and
differs from the start, findPath returns none — the goal can then never
enter the open list, so the loop drains without popping it. A wall start
cell alone does not force NotFound. -/
theorem findPath_wall_goal_none (grid : List (List Bool)) (start endC : ℤ × ℤ)
    (hg : walkable grid endC = false) (hne : start ≠ endC) :
    findPath grid start endC = none := by
  unfold findPath
  apply astarLoop_wall_none hg
  show endC ∉ [start]
  intro hmem
  rw [List.mem_singleton] at hmem
  exact hne hmem.symm

/-- Witness for the amended C6 theorem on a concrete grid with a wall goal. -/
theorem findPath_wall_goal_none_witness :
    walkable [[false, true]] ((1 : ℤ), (0 : ℤ)) = false ∧
    ((0 : ℤ), (0 : ℤ)) ≠ ((1 : ℤ), (0 : ℤ)) ∧
    findPath [[false, true]] (0, 0) (1, 0) = none :=
  ⟨by decide, by decide,
    findPath_wall_goal_none [[false, true]] (0, 0) (1, 0) (by decide) (by decide)⟩

end NexusMaze
